import Mathlib

/-!
# OW-ChCCA-KEM: a shallow embedding of the core KEM code, with proofs

This file embeds, in Lean 4, the core of the OW-ChCCA-KEM Go implementation:

* the big-integer vector/matrix arithmetic over `Z_q` together with its
  length-prefixed binary encoding (package `arithmetic`, file `matrix.go`),
* the parameter calculator and the serialized-size formulas (`params.go`),
* the KEM core: key generation, encapsulation, decapsulation, the seed
  expander, the rounding routine and the ciphertext wire format (`kem.go`),
* the relevant fragments of the legacy `internal` package (`ccakem.go`).

Go `[]byte` values are embedded as `List Nat` (each entry the value of one
byte), `big.Int` field elements as `Nat` with explicit `% q`, and fallible
operations as `Option`/`Except`.  The external deterministic primitives
(SHA3-256, the SHA3-512 absorb-and-squeeze reader, and the keyed discrete
Gaussian sampler of the lattigo library) are abstracted as function
parameters, packaged in `Prims`; they are pure functions of their inputs in
the Go code, and the theorems assume only their output lengths.

Go runtime faults (out-of-range slice indices, nil dereferences) are made
explicit: the places where the Go code could fault are modelled by the
distinguished error value `KemError.crash` or by `Option.none`, so that a
total Lean function can state "this code never faults".
-/

namespace OwChCCA

/-- Go `[]byte`, one `Nat` per byte. -/
abbrev Bytes := List Nat

/-- Euclidean `(a - b) mod q` on naturals, as computed by `big.Int.Mod`
after `big.Int.Sub` (the result is non-negative for positive `q`). -/
def subMod (a b q : Nat) : Nat := (((a : Int) - (b : Int)) % (q : Int)).toNat

/-- Helper for `natBitLen`: the first argument is fuel (the Go code uses
`big.Int.BitLen`, which is total). -/
def bitLenAux : Nat → Nat → Nat
  | 0, _ => 0
  | fuel + 1, n => if n = 0 then 0 else bitLenAux fuel (n / 2) + 1

/-- `big.Int.BitLen` for non-negative integers: the length of the binary
representation (`natBitLen 0 = 0`). -/
def natBitLen (n : Nat) : Nat := bitLenAux n n

/-- `elementSize := (modulus.BitLen() + 7) / 8`, the fixed byte width used
for every field element in the wire encodings (`matrix.go`). -/
def elementSize (q : Nat) : Nat := (natBitLen q + 7) / 8

/-- `binary.BigEndian.PutUint32`: four big-endian bytes of `n`
(truncated to 32 bits, as the Go `uint32` conversion does). -/
def putUint32 (n : Nat) : Bytes :=
  [n / 16777216 % 256, n / 65536 % 256, n / 256 % 256, n % 256]

/-- `binary.BigEndian.Uint32` of the first four bytes. -/
def readUint32 (b : Bytes) : Nat :=
  ((b.getD 0 0 * 256 + b.getD 1 0) * 256 + b.getD 2 0) * 256 + b.getD 3 0

/-- The zero-left-padded big-endian encoding of `v` on `w` bytes, as produced
by `big.Int.Bytes()` preceded by zero padding (`matrix.go`, Marshal). -/
def natToBytesBE : Nat → Nat → Bytes
  | 0, _ => []
  | w + 1, v => natToBytesBE w (v / 256) ++ [v % 256]

/-- `big.Int.SetBytes`: big-endian bytes to a natural number. -/
def bytesToNatBE (b : Bytes) : Nat := b.foldl (fun acc x => acc * 256 + x) 0

/-- `arithmetic.Vector`: a list of field elements plus the modulus. -/
structure Vector where
  values : List Nat
  modulus : Nat
deriving DecidableEq, Repr

/-- `arithmetic.Matrix`: declared dimensions, a row-major grid, the modulus.
The Go code only ever builds grids whose shape matches the declared
dimensions (`NewMatrix`); the embedding reads entries with a `0` default. -/
structure Matrix where
  rows : Nat
  cols : Nat
  values : List (List Nat)
  modulus : Nat
deriving DecidableEq, Repr

/-- `NewVector`: zero-filled vector. -/
def Vector.new (length modulus : Nat) : Vector :=
  ⟨List.replicate length 0, modulus⟩

def Vector.length (v : Vector) : Nat := v.values.length

/-- `Vector.Get` (in-range in all uses; out-of-range reads default to 0). -/
def Vector.get (v : Vector) (i : Nat) : Nat := v.values.getD i 0

/-- `Vector.Set`: stores `value mod Modulus` (the defensive reduction that
is central to several findings below). -/
def Vector.set (v : Vector) (i value : Nat) : Vector :=
  ⟨v.values.set i (value % v.modulus), v.modulus⟩

/-- `Vector.Equal`: same length and equal entries. -/
def Vector.equal (v w : Vector) : Bool := v.values == w.values

/-- element list of `Vector.Add` (pointwise `mod` the left modulus). -/
def Vector.addValues (v w : Vector) : List Nat :=
  List.zipWith (fun a b => (a + b) % v.modulus) v.values w.values

/-- `Vector.Add`: errors (`InvalidDimensions`) on a length mismatch. -/
def Vector.add (v w : Vector) : Option Vector :=
  if v.length ≠ w.length then none else some ⟨v.addValues w, v.modulus⟩

/-- element list of `Vector.Subtract`. -/
def Vector.subValues (v w : Vector) : List Nat :=
  List.zipWith (fun a b => subMod a b v.modulus) v.values w.values

/-- `Vector.Subtract`. -/
def Vector.subtract (v w : Vector) : Option Vector :=
  if v.length ≠ w.length then none else some ⟨v.subValues w, v.modulus⟩

/-- `Vector.ScalarMultiply` (the Go version never returns an error). -/
def Vector.scalarMultiply (v : Vector) (scalar : Nat) : Vector :=
  ⟨v.values.map (fun a => a * scalar % v.modulus), v.modulus⟩

/-- `Vector.Sum`: running sum reduced `mod` after every addition. -/
def Vector.sum (v : Vector) : Nat :=
  v.values.foldl (fun sum a => (sum + a) % v.modulus) 0

/-- `Vector.EncodedSize`: 4 length bytes plus one block per element. -/
def Vector.encodedSize (v : Vector) : Nat :=
  4 + v.length * elementSize v.modulus

/-- `Vector.MarshalBinary`: 4-byte big-endian length, then the elements,
each on `elementSize` bytes; errors (`Serialization`) if an element does
not fit. -/
def Vector.marshalBinary (v : Vector) : Option Bytes :=
  let el := elementSize v.modulus
  if v.values.all (fun a => a < 256 ^ el) then
    some (putUint32 v.length ++ (v.values.map (natToBytesBE el)).flatten)
  else none

/-- `Vector.UnmarshalBinary`: reads the embedded length, resizes, then
decodes each element and reduces it `mod` the modulus.  Errors
(`Deserialization`) if the buffer is shorter than 4 bytes or than the
declared length requires. -/
def Vector.unmarshalBinary (v : Vector) (data : Bytes) : Option Vector :=
  if data.length < 4 then none else
  let length := readUint32 data
  let el := elementSize v.modulus
  if data.length < 4 + length * el then none else
  some ⟨(List.range length).map
      (fun i => bytesToNatBE ((data.drop (4 + i * el)).take el) % v.modulus),
    v.modulus⟩

/-- `NewMatrix`: zero-filled `rows × cols` grid. -/
def Matrix.new (rows cols modulus : Nat) : Matrix :=
  ⟨rows, cols, List.replicate rows (List.replicate cols 0), modulus⟩

def Matrix.get (m : Matrix) (i j : Nat) : Nat := (m.values.getD i []).getD j 0

/-- `Matrix.Equal`: equal dimensions and equal entries. -/
def Matrix.equal (m o : Matrix) : Bool :=
  m.rows == o.rows && m.cols == o.cols && m.values == o.values

/-- `Matrix.Transpose` (the Go version never returns an error). -/
def Matrix.transpose (m : Matrix) : Matrix :=
  ⟨m.cols, m.rows,
    (List.range m.cols).map (fun j => (List.range m.rows).map (fun i => m.get i j)),
    m.modulus⟩

/-- element list of `Matrix.MultiplyVector`: each product is reduced
`mod q`, and so is the running sum after every addition. -/
def Matrix.mulVecValues (m : Matrix) (v : Vector) : List Nat :=
  (List.range m.rows).map (fun i =>
    (List.range m.cols).foldl
      (fun sum j => (sum + m.get i j * v.get j % m.modulus) % m.modulus) 0)

/-- `Matrix.MultiplyVector`: errors (`InvalidDimensions`) unless
`Cols = v.Length`. -/
def Matrix.multiplyVector (m : Matrix) (v : Vector) : Option Vector :=
  if m.cols ≠ v.length then none else some ⟨m.mulVecValues v, m.modulus⟩

/-- `Matrix.EncodedSize`. -/
def Matrix.encodedSize (m : Matrix) : Nat :=
  8 + m.rows * m.cols * elementSize m.modulus

/-- `Matrix.MarshalBinary`: two 4-byte big-endian dimensions, then the
row-major elements on `elementSize` bytes each. -/
def Matrix.marshalBinary (m : Matrix) : Option Bytes :=
  let el := elementSize m.modulus
  if m.values.all (fun row => row.all (fun a => a < 256 ^ el)) then
    some (putUint32 m.rows ++ putUint32 m.cols ++
      (m.values.map (fun row => (row.map (natToBytesBE el)).flatten)).flatten)
  else none

/-- The closed set of error kinds relevant to the embedded operations.
`crash` does not model a Go error value: it marks the spots where the Go
code would hit a runtime fault (a nil dereference, an out-of-range slice
index, or an overrunning allocation), so that "never crashes" is a
provable statement. -/
inductive KemError
  | invalidCiphertext
  | decapsulationFailed
  | invalidDimensions
  | deserialization
  | crash
deriving DecidableEq, Repr

/-- The value of a (possibly huge) natural number when Go computes it in a
wrapping 64-bit `int`: reduce `mod 2^64` and interpret as two's
complement. -/
def int64OfNat (n : Nat) : Int :=
  if n % 2 ^ 64 < 2 ^ 63 then ((n % 2 ^ 64 : Nat) : Int)
  else ((n % 2 ^ 64 : Nat) : Int) - 2 ^ 64

/-- `Matrix.UnmarshalBinary`: reads the embedded dimensions, resizes, then
decodes row-major elements, reducing each `mod` the modulus.  The length
guard mirrors the source exactly: Go computes
`8 + int(rows)*int(cols)*elementSize` in a wrapping 64-bit `int` and
compares it (signed) against `len(data)`.  When the product overflows, the
guard can pass although the data is far too short; the code then runs into
`NewMatrix` and the element reads, whose allocation/slicing necessarily
faults — marked `crash`.  When `8 + rows·cols·elementSize` does not
overflow, the wrapped guard coincides with the exact one and the `crash`
branch is unreachable. -/
def Matrix.unmarshalBinary (m : Matrix) (data : Bytes) : Except KemError Matrix :=
  if data.length < 8 then .error .deserialization else
  let rows := readUint32 data
  let cols := readUint32 (data.drop 4)
  let el := elementSize m.modulus
  if (data.length : Int) < int64OfNat (8 + rows * cols * el) then
    .error .deserialization else
  if data.length < 8 + rows * cols * el then .error .crash else
  .ok ⟨rows, cols,
    (List.range rows).map (fun i => (List.range cols).map (fun j =>
      bytesToNatBE ((data.drop (8 + (i * cols + j) * el)).take el) % m.modulus)),
    m.modulus⟩

/-! ## Parameter calculator (`params.go`) -/

/-- Fuel-driven floor of the base-2 logarithm; models `int(math.Log2(x))`
for the magnitudes used by the calculator (where the `float64` computation
is exact enough that truncation equals the mathematical floor). -/
def log2Fuel : Nat → Nat → Nat
  | 0, _ => 0
  | fuel + 1, n => if 2 ≤ n then log2Fuel fuel (n / 2) + 1 else 0

/-- `int(math.Log2(float64 n))`. -/
def floorLog2 (n : Nat) : Nat := log2Fuel n n

/-- The calculator's recurring pattern: `l := int(log2 n); if 2^l != n { l++ }`,
i.e. the ceiling of the base-2 logarithm for positive `n`. -/
def ceilLog2 (n : Nat) : Nat :=
  let l := floorLog2 n
  if 2 ^ l = n then l else l + 1

/-- The `logQ` assignment inside the candidate loop of `CalculateParameters`:
`logQ = min(60, max(62, m/(2*n)))` (verbatim from the source). -/
def calcLogQ (m n : Nat) : Nat := min 60 (max 62 (m / (2 * n)))

/-- The spec's `clamp(x, lo, hi)`. -/
def clampSpec (x lo hi : Nat) : Nat := max lo (min hi x)

/-- The `bitSize` argument passed to `NewBigNTTFriendlyPrimesGenerator`
inside the loop: `logQ + 1`. -/
def primeGenBitSize (m n : Nat) : Nat := calcLogQ m n + 1

/-- The first candidate `m` tried by `CalculateParameters` for a security
level: `n := 8·level`, `logN := ⌈log2 n⌉`, `minM := 6·n·logN + 1`, and the
loop starts at `m := 2^⌈log2 minM⌉`. -/
def firstCandidateM (level : Nat) : Nat :=
  let n := 8 * level
  let logN := ceilLog2 n
  let minM := 6 * n * logN + 1
  2 ^ ceilLog2 minM

/-- `Parameters.PublicKeySize`: `aSize + 2·uSize` with
`aSize = 8 + n·m·elementSize`, `uSize = 8 + n·level·elementSize`. -/
def publicKeySizeCalc (level n m q : Nat) : Nat :=
  let el := elementSize q
  (8 + n * m * el) + 2 * (8 + n * level * el)

/-- `Parameters.PrivateKeySize`: `zbSize + 1 + PublicKeySize` with
`zbSize = 8 + m·level·elementSize` (note the public-key size is included). -/
def privateKeySizeCalc (level n m q : Nat) : Nat :=
  let el := elementSize q
  (8 + m * level * el) + 1 + publicKeySizeCalc level n m q

/-- `Parameters.CiphertextSize`: `2·cbSize + xSize + 2·hatHbSize` with
`cbSize = hatHbSize = level/8` and `xSize = 4 + m·elementSize`. -/
def ciphertextSizeCalc (level m q : Nat) : Nat :=
  let el := elementSize q
  2 * (level / 8) + (4 + m * el) + 2 * (level / 8)

/-- `Parameters.SharedKeySize`: `level / 8`. -/
def sharedKeySizeCalc (level : Nat) : Nat := level / 8

/-- The spec's formula (for comparison with `ciphertextSizeCalc`):
`ciphertextBytes = 2·(λ/8) + xSize + 2·hSize` with `xSize = 4 + m·elSize`
and `hSize = 4 + λ·elSize`. -/
def ciphertextBytesSpec (level m q : Nat) : Nat :=
  2 * (level / 8) + (4 + m * elementSize q) + 2 * (4 + level * elementSize q)

/-- The spec's formula (for comparison with `privateKeySizeCalc`):
`privateKeyBytes = (8 + m·λ·elSize) + 1`. -/
def privateKeyBytesSpec (level m q : Nat) : Nat :=
  (8 + m * level * elementSize q) + 1

/-- The claim's rounding rule (for comparison with `roundVector`): the bit
is 0 exactly when the circular distance of `v` to 0, `min(v, q−v)`, is at
most its distance to `⌊q/2⌋`. -/
def roundBitSpec (q v : Nat) : Nat :=
  if min v (q - v) ≤ (if v ≤ q / 2 then q / 2 - v else v - q / 2) then 0 else 1

/-! ## KEM core (`kem.go`) -/

/-- The deterministic external primitives, as opaque pure functions:
`h256` is SHA3-256, `xof` is "absorb into SHA3-512, then Read k bytes"
(`sha3.New512` followed by `Write`s and one `Read`), and `sampleD` is the
keyed discrete Gaussian sampler of `GenerateSampleDVector` (the
`rho`-keyed lattigo sampler followed by `PolyToBigint`), abstracted over
its floating-point width parameter, returning the coefficient list. -/
structure Prims where
  h256 : Bytes → Bytes
  xof : Bytes → Nat → Bytes
  sampleD : Nat → Bytes → List Nat

/-- The 16-byte ASCII label `"OW-ChCCA-KEM-KDF"`. -/
def kdfLabel : Bytes :=
  [79, 87, 45, 67, 104, 67, 67, 65, 45, 75, 69, 77, 45, 75, 68, 70]

/-- `kdf`: absorb `input` then the label into SHA3-512 and read
`outputSize` bytes. -/
def kdf (pr : Prims) (input : Bytes) (outputSize : Nat) : Bytes :=
  pr.xof (input ++ kdfLabel) outputSize

/-- `GenerateSampleDVector`: the keyed Gaussian sample as a vector over the
given modulus. -/
def generateSampleDVector (pr : Prims) (length : Nat) (rho : Bytes) (modulus : Nat) :
    Vector :=
  ⟨pr.sampleD length rho, modulus⟩

/-- Go slicing `l[:k]`, which faults when `k > len(l)`. -/
def sliceTo (l : Bytes) (k : Nat) : Option Bytes :=
  if k ≤ l.length then some (l.take k) else none

/-- The byte-wise XOR loops of `Encapsulate`/`Decapsulate` (both sides
always have length `lambda/8` at the call sites). -/
def xorBytes (a b : Bytes) : Bytes := List.zipWith (fun x y => x ^^^ y) a b

/-- The inner bit-reading loop of `bytesToVector` (fuel-driven; the fuel is
the number of bits still to read, which strictly decreases). -/
def readBitsLoop : Nat → Bytes → Nat → Nat → Nat → Nat → Nat
  | 0, _, _, _, _, value => value
  | fuel + 1, data, j, currentBitOffset, bitsRemaining, value =>
    if bitsRemaining = 0 then value
    else if data.length ≤ j then value
    else
      let bitsToRead := min (8 - currentBitOffset) bitsRemaining
      let byteMask := 2 ^ bitsToRead - 1
      let extracted := data.getD j 0 >>> currentBitOffset &&& byteMask
      readBitsLoop fuel data (j + 1) 0 (bitsRemaining - bitsToRead)
        (value <<< bitsToRead ||| extracted)

/-- `bytesToVector`: interprets `bitsPerValue`-bit groups of `data` as the
elements of a vector whose modulus is the mask `2^bitsPerValue − 1`
(`NewVector(length, mask)`); each masked value is stored through `Set`,
i.e. reduced `mod mask`.  Returns `nil` (here `none`) when `data` is too
short. -/
def bytesToVector (data : Bytes) (length bitsPerValue : Nat) : Option Vector :=
  if data.length * 8 < length * bitsPerValue then none
  else
    let mask := 2 ^ bitsPerValue - 1
    some ⟨(List.range length).map (fun i =>
        let startBit := i * bitsPerValue
        (readBitsLoop bitsPerValue data (startBit / 8) (startBit % 8) bitsPerValue 0
            &&& mask) % mask),
      mask⟩

/-- `bytesToBinaryVector`: one bit per element, LSB-first within each byte,
stored through `Set` into a vector created with modulus 1 — so every
stored bit is reduced `mod 1`. -/
def bytesToBinaryVector (data : Bytes) (length : Nat) : Option Vector :=
  if data.length * 8 < length then none
  else
    some ⟨(List.range length).map (fun i =>
        (if data.getD (i / 8) 0 >>> (i % 8) &&& 1 == 1 then 1 else 0) % 1), 1⟩

/-- `expandSeed`: `m := SHA3-256(seed)`; squeeze
`totalSize = sSize + rhoSize + h0Size + h1Size` bytes out of SHA3-512
(`sSize = n·(logEta+1)/8`, `rhoSize = h0Size = h1Size = lambda/8`); split
the stream in that order and convert.  The size abbreviations are inlined
here.  A `nil` result of either conversion makes the Go callers fault on
the nil vector, hence the `Option`. -/
def expandSeed (pr : Prims) (seed : Bytes) (n lambda logEta : Nat) :
    Option (Vector × Bytes × Vector × Vector) :=
  match bytesToVector ((pr.xof (pr.h256 seed)
        (n * (logEta + 1) / 8 + lambda / 8 + lambda / 8 + lambda / 8)).take
          (n * (logEta + 1) / 8)) n (logEta + 1),
      bytesToBinaryVector (((pr.xof (pr.h256 seed)
        (n * (logEta + 1) / 8 + lambda / 8 + lambda / 8 + lambda / 8)).drop
          (n * (logEta + 1) / 8 + lambda / 8)).take (lambda / 8)) lambda,
      bytesToBinaryVector ((pr.xof (pr.h256 seed)
        (n * (logEta + 1) / 8 + lambda / 8 + lambda / 8 + lambda / 8)).drop
          (n * (logEta + 1) / 8 + lambda / 8 + lambda / 8)) lambda with
  | some s, some h0, some h1 =>
    some (s, ((pr.xof (pr.h256 seed)
      (n * (logEta + 1) / 8 + lambda / 8 + lambda / 8 + lambda / 8)).drop
        (n * (logEta + 1) / 8)).take (lambda / 8), h0, h1)
  | _, _, _ => none

/-- The value list of the `s` component produced by `expandSeed` (a named
abbreviation used to state `expandSeed_eq`). -/
def expandSVals (pr : Prims) (seed : Bytes) (n lambda logEta : Nat) : List Nat :=
  (List.range n).map (fun i =>
    (readBitsLoop (logEta + 1)
        ((pr.xof (pr.h256 seed)
          (n * (logEta + 1) / 8 + lambda / 8 + lambda / 8 + lambda / 8)).take
            (n * (logEta + 1) / 8))
        (i * (logEta + 1) / 8) (i * (logEta + 1) % 8) (logEta + 1) 0 &&&
      (2 ^ (logEta + 1) - 1)) % (2 ^ (logEta + 1) - 1))

/-- The `rho` component produced by `expandSeed` (a named abbreviation
used to state `expandSeed_eq`). -/
def expandRho (pr : Prims) (seed : Bytes) (n lambda logEta : Nat) : Bytes :=
  ((pr.xof (pr.h256 seed)
    (n * (logEta + 1) / 8 + lambda / 8 + lambda / 8 + lambda / 8)).drop
      (n * (logEta + 1) / 8)).take (lambda / 8)

/-- `hash3`: SHA3-256 over the concatenated encodings of its three inputs
(the Go code discards encoding errors; a failed encoding contributes
nothing, like the resulting nil slice). -/
def hash3 (pr : Prims) (x hatH h : Vector) : Bytes :=
  pr.h256 ((x.marshalBinary.getD []) ++ (hatH.marshalBinary.getD []) ++
    (h.marshalBinary.getD []))

/-- `computeHatH`: `U^T·s + h·⌊q/2⌋`. -/
def computeHatH (uTs h : Vector) (modulus : Nat) : Option Vector :=
  let halfQ := modulus / 2
  let scaled := h.scalarMultiply halfQ
  uTs.add scaled

/-- `roundVector`: the distances are computed as in the source
(`distToZero = v`, replaced by `q − v` when `v > ⌊q/2⌋`;
`distToHalfQ = |v − ⌊q/2⌋|`), and the chosen bit is stored through `Set`
into a vector created with modulus 1, i.e. reduced `mod 1`. -/
def roundVector (v : Vector) (modulus : Nat) : Vector :=
  let halfQ := modulus / 2
  ⟨v.values.map (fun val =>
      let distToZero := if halfQ < val then modulus - val else val
      let distToHalfQ := if val ≤ halfQ then halfQ - val else val - halfQ
      (if distToZero ≤ distToHalfQ then 0 else 1) % 1), 1⟩

/-- `constructCiphertext`: `c0 ∥ c1 ∥ encode(x) ∥ encode(hatH0) ∥ encode(hatH1)`. -/
def constructCiphertext (c0 c1 : Bytes) (x hatH0 hatH1 : Vector) : Option Bytes :=
  match x.marshalBinary, hatH0.marshalBinary, hatH1.marshalBinary with
  | some xBytes, some hatH0Bytes, some hatH1Bytes =>
    some (c0 ++ c1 ++ xBytes ++ hatH0Bytes ++ hatH1Bytes)
  | _, _, _ => none

/-- `parseCiphertext`: read `c0`, `c1`, then `x`, `hatH0`, `hatH1` at the
offsets fixed by the parameters; every failure is `InvalidCiphertext`. -/
def parseCiphertext (ciphertext : Bytes) (m lambda modulus : Nat) :
    Except KemError (Bytes × Bytes × Vector × Vector × Vector) :=
  if ciphertext.length < 2 * (lambda / 8) then .error .invalidCiphertext else
  let c0 := ciphertext.take (lambda / 8)
  let c1 := (ciphertext.drop (lambda / 8)).take (lambda / 8)
  let pos := 2 * (lambda / 8)
  let xSize := (Vector.new m modulus).encodedSize
  if ciphertext.length < pos + xSize then .error .invalidCiphertext else
  match (Vector.new m modulus).unmarshalBinary ((ciphertext.drop pos).take xSize) with
  | none => .error .invalidCiphertext
  | some x =>
    let pos := pos + xSize
    let hSize := (Vector.new lambda modulus).encodedSize
    if ciphertext.length < pos + hSize then .error .invalidCiphertext else
    match (Vector.new lambda modulus).unmarshalBinary
        ((ciphertext.drop pos).take hSize) with
    | none => .error .invalidCiphertext
    | some hatH0 =>
      let pos := pos + hSize
      if ciphertext.length < pos + hSize then .error .invalidCiphertext else
      match (Vector.new lambda modulus).unmarshalBinary
          ((ciphertext.drop pos).take hSize) with
      | none => .error .invalidCiphertext
      | some hatH1 => .ok (c0, c1, x, hatH0, hatH1)

/-- The KEM parameter fields used by the core operations, including the
recorded serialized sizes (`Parameters` / `KeyParameters`). -/
structure Params where
  name : String
  n : Nat
  m : Nat
  lambda : Nat
  logEta : Nat
  q : Nat
  sharedKeySize : Nat
  publicKeySize : Nat
  privateKeySize : Nat
  ciphertextSize : Nat
deriving DecidableEq, Repr

/-- `PublicKey`: the parameters and the matrices `A`, `U0`, `U1`. -/
structure PublicKey where
  params : Params
  a : Matrix
  u0 : Matrix
  u1 : Matrix
deriving DecidableEq, Repr

/-- `PrivateKey`: the back-referenced public key, `Zb` and the branch bit. -/
structure PrivateKey where
  pk : PublicKey
  zb : Matrix
  b : Bool
deriving DecidableEq, Repr

/-- `Encapsulate` (the fresh seed `r` — the `lambda/8` bytes read from the
randomness source — is passed in explicitly; `s` is the expanded vector
re-moduled to `q`, written out at each use). -/
def encapsulate (pr : Prims) (P : Params) (pk : PublicKey) (r : Bytes) :
    Option (Bytes × Bytes) :=
  match expandSeed pr r P.n P.lambda P.logEta with
  | none => none
  | some (s₀, rho, h0, h1) =>
  match pk.a.transpose.multiplyVector { s₀ with modulus := P.q } with
  | none => none
  | some ats =>
  match ats.add (generateSampleDVector pr P.m rho P.q) with
  | none => none
  | some x =>
  match pk.u0.transpose.multiplyVector { s₀ with modulus := P.q } with
  | none => none
  | some u0ts =>
  match computeHatH u0ts h0 P.q with
  | none => none
  | some hatH0 =>
  match pk.u1.transpose.multiplyVector { s₀ with modulus := P.q } with
  | none => none
  | some u1ts =>
  match computeHatH u1ts h1 P.q with
  | none => none
  | some hatH1 =>
  match sliceTo (hash3 pr x hatH0 h0) (P.lambda / 8) with
  | none => none
  | some hatK0 =>
  match sliceTo (hash3 pr x hatH1 h1) (P.lambda / 8) with
  | none => none
  | some hatK1 =>
  match constructCiphertext (xorBytes hatK0 r) (xorBytes hatK1 r) x hatH0 hatH1 with
  | none => none
  | some ciphertext => some (ciphertext, kdf pr r P.sharedKeySize)

/-- The four sequential verification tests at the end of `Decapsulate`:
each failing test returns the one error value `ErrDecapsulationFailed`
(the second test is the constant-time byte comparison). -/
def decapChecks (x xPrime : Vector) (cnb cnbCalculated : Bytes)
    (hbPrime hb hatHnbPrime hatHnb : Vector) (sharedKey : Bytes) :
    Except KemError Bytes :=
  if ¬ x.equal xPrime then .error .decapsulationFailed
  else if ¬ (cnb == cnbCalculated) then .error .decapsulationFailed
  else if ¬ hbPrime.equal hb then .error .decapsulationFailed
  else if ¬ hatHnbPrime.equal hatHnb then .error .decapsulationFailed
  else .ok sharedKey

/-- The verification stage of the legacy `internal/ccakem.go`
`DecapsulateTo` (the four `if` blocks at its end, lines 364–380): unlike
the `pkg` version, each failing check returns a DISTINCT `fmt.Errorf`
value whose message names the failing check.  The second comparison is the
source's byte loop over the indices of `cnb` (every call site passes
`lambda/8`-byte strings); reads use the Go slices' in-range values. -/
def internalDecapChecks (x xPrime : Vector) (cnb hatKnb rBytes : Bytes)
    (hb hbPrime hatHnb hatHnbPrime : Vector) : Except String Bytes :=
  if ¬ x.equal xPrime then
    .error "decap failed, check x = A^t * s + e failed"
  else if ¬ (List.range cnb.length).all
      (fun i => cnb.getD i 0 == hatKnb.getD i 0 ^^^ rBytes.getD i 0) then
    .error "decap failed, check hatKnb xor R = cnb failed"
  else if ¬ hb.equal hbPrime then
    .error "decap failed, check hb = hb_ failed"
  else if ¬ hatHnb.equal hatHnbPrime then
    .error "decap failed, check hatHnb = hatHnb_ failed"
  else .ok rBytes

/-- `Decapsulate`. -/
def decapsulate (pr : Prims) (P : Params) (sk : PrivateKey) (ciphertext : Bytes) :
    Except KemError Bytes :=
  match parseCiphertext ciphertext P.m P.lambda P.q with
  | .error e => .error e
  | .ok (c0, c1, x, hatH0, hatH1) =>
    let (hatHb, hatHnb) := if sk.b then (hatH1, hatH0) else (hatH0, hatH1)
    let (cb, cnb) := if sk.b then (c1, c0) else (c0, c1)
    let unb := if sk.b then sk.pk.u0 else sk.pk.u1
    match sk.zb.transpose.multiplyVector x with
    | none => .error .invalidDimensions
    | some zbtx =>
    match hatHb.subtract zbtx with
    | none => .error .invalidDimensions
    | some diff =>
    let hbPrime := roundVector diff P.q
    match sliceTo (hash3 pr x hatHb hbPrime) (P.lambda / 8) with
    | none => .error .crash
    | some hatKb =>
    let r := xorBytes cb hatKb
    match expandSeed pr r P.n P.lambda P.logEta with
    | none => .error .crash
    | some (s₀, rho, h0, h1) =>
    let s : Vector := { s₀ with modulus := P.q }
    let (hnbSel : Vector × Vector) := if sk.b then (h1, h0) else (h0, h1)
    let hb := hnbSel.1
    let hnb := hnbSel.2
    match unb.transpose.multiplyVector s with
    | none => .error .invalidDimensions
    | some unbts =>
    match computeHatH unbts hnb P.q with
    | none => .error .invalidDimensions
    | some hatHnbPrime =>
    match sliceTo (hash3 pr x hatHnbPrime hnb) (P.lambda / 8) with
    | none => .error .crash
    | some hatKnb =>
    let e := generateSampleDVector pr P.m rho P.q
    match sk.pk.a.transpose.multiplyVector s with
    | none => .error .invalidDimensions
    | some ats =>
    match ats.add e with
    | none => .error .invalidDimensions
    | some xPrime =>
    let cnbCalculated := xorBytes hatKnb r
    decapChecks x xPrime cnb cnbCalculated hbPrime hb hatHnbPrime hatHnb
      (kdf pr r P.sharedKeySize)

/-! ## Key generation (`kem.go` `GenerateKeyPair`, and the legacy
`internal/ccakem.go` `InitKey`) -/

/-- The `U0`/`U1` assignment of `GenerateKeyPair` (`kem.go`): returns
`(U0, U1)`; the matrix `A·Zb` goes to the branch selected by `b` and the
uniform matrix to the other one. -/
def pkgSetU (b : Bool) (aZb zq : Matrix) : Matrix × Matrix :=
  if b then (zq, aZb) else (aZb, zq)

/-- The `U0`/`U1` assignment of the legacy `InitKey`
(`internal/ccakem.go`, the `if sk.b` at the end): returns `(U0, U1)`. -/
def initKeySetU (b : Bool) (matAz matZq : Matrix) : Matrix × Matrix :=
  if b then (matAz, matZq) else (matZq, matZq)

/-- The computation of `A·Zb` in `GenerateKeyPair`: entry `(i,j)` is the
coefficient sum (reduced `mod q` after each addition) of the pointwise
product (`MulCoeffsBarrett`, each product reduced `mod q`) of row `i` of
`A` with column `j` of `Zb` — which is the exact matrix product. -/
def matAZb (polyA zbT : List (List Nat)) (n m lambda q : Nat) : Matrix :=
  ⟨n, lambda,
    (List.range n).map (fun i => (List.range lambda).map (fun j =>
      (List.range m).foldl
        (fun sum k =>
          (sum + (polyA.getD i []).getD k 0 * (zbT.getD j []).getD k 0 % q) % q)
        0)),
    q⟩

/-- The secret matrix `Zb` built column-wise from the `lambda` sampled
coefficient rows of `PolyVecZbT`. -/
def keygenZb (zbT : List (List Nat)) (m lambda q : Nat) : Matrix :=
  ⟨m, lambda,
    (List.range m).map (fun j => (List.range lambda).map (fun i =>
      (zbT.getD i []).getD j 0)), q⟩

/-- The branch bit: `bByte[0] & 1 == 1`. -/
def keygenB (bByte : Nat) : Bool := bByte &&& 1 == 1

/-- The public key built by `GenerateKeyPair` from the sampled data:
`polyA` are the `n` uniform coefficient rows of `A`, `zbT` the `lambda`
Gaussian coefficient rows of `Zb` transposed, `w` the uniform matrix. -/
def keygenPk (P : Params) (polyA zbT w : List (List Nat)) (bByte : Nat) :
    PublicKey :=
  let a : Matrix := ⟨P.n, P.m, polyA, P.q⟩
  let aZb := matAZb polyA zbT P.n P.m P.lambda P.q
  let zq : Matrix := ⟨P.n, P.lambda, w, P.q⟩
  let u := pkgSetU (keygenB bByte) aZb zq
  ⟨P, a, u.1, u.2⟩

/-- `GenerateKeyPair`, as a function of the sampled randomness: the
uniform rows for `A`, the Gaussian rows for `Zb` (transposed), the uniform
matrix `W` and the branch byte. -/
def generateKeyPair (P : Params) (polyA zbT w : List (List Nat)) (bByte : Nat) :
    PublicKey × PrivateKey :=
  let pk := keygenPk P polyA zbT w bByte
  (pk, ⟨pk, keygenZb zbT P.m P.lambda P.q, keygenB bByte⟩)

/-! ## Key serialization (`kem.go`) -/

/-- `PublicKey.Bytes`: `encode(A) ∥ encode(U0) ∥ encode(U1)`. -/
def PublicKey.bytes (pk : PublicKey) : Option Bytes := do
  let aBytes ← pk.a.marshalBinary
  let u0Bytes ← pk.u0.marshalBinary
  let u1Bytes ← pk.u1.marshalBinary
  pure (aBytes ++ u0Bytes ++ u1Bytes)

/-- `PublicKey.Equal`: parameter name and the three matrices. -/
def PublicKey.equal (pk other : PublicKey) : Bool :=
  pk.params.name == other.params.name &&
    (pk.u0.equal other.u0 && pk.u1.equal other.u1 && pk.a.equal other.a)

/-- `PublicKey.UnmarshalBinary`: length checks against the recorded
`PublicKeySize` and the derived `aSize + 2·uSize`, then the three segment
parses.  A matrix parse error is re-wrapped in `ErrDeserializationError`
(so it stays `deserialization`), while a runtime fault inside the matrix
parse propagates as a panic (`crash`). -/
def PublicKey.unmarshalBinary (params : Params) (data : Bytes) :
    Except KemError PublicKey :=
  if data.length < params.publicKeySize then .error .deserialization else
  let n := params.n
  let m := params.m
  let lambda := params.lambda
  let aSize := 8 + n * m * elementSize params.q
  let uSize := 8 + n * lambda * elementSize params.q
  if data.length < aSize + 2 * uSize then .error .deserialization else
  match (Matrix.new n m params.q).unmarshalBinary (data.take aSize) with
  | .error e => .error e
  | .ok a =>
  match (Matrix.new n lambda params.q).unmarshalBinary
      ((data.drop aSize).take uSize) with
  | .error e => .error e
  | .ok u0 =>
  match (Matrix.new n lambda params.q).unmarshalBinary
      ((data.drop (aSize + uSize)).take uSize) with
  | .error e => .error e
  | .ok u1 => .ok ⟨params, a, u0, u1⟩

/-- `ParsePublicKey` (the façade): requires parameters, then
`UnmarshalBinary`. -/
def parsePublicKey (data : Bytes) (params : Params) : Except KemError PublicKey :=
  PublicKey.unmarshalBinary params data

/-- `PrivateKey.Bytes`: `encode(Zb) ∥ byte(b ? 1 : 0)`. -/
def PrivateKey.bytes (sk : PrivateKey) : Option Bytes := do
  let zbBytes ← sk.zb.marshalBinary
  pure (zbBytes ++ [if sk.b then 1 else 0])

/-- `PrivateKey.Equal`: the flag, `Zb`, and the back-referenced public keys. -/
def PrivateKey.equal (sk other : PrivateKey) : Bool :=
  sk.b == other.b && sk.zb.equal other.zb && sk.pk.equal other.pk

/-- `PrivateKey.UnmarshalBinary` against the given back-referenced public
key: parse `Zb` from the first `zbSize` bytes, then the flag byte. -/
def PrivateKey.unmarshalBinary (pk : PublicKey) (data : Bytes) :
    Except KemError PrivateKey :=
  let params := pk.params
  let m := params.m
  let lambda := params.lambda
  let zbSize := 8 + m * lambda * elementSize params.q
  if data.length < zbSize + 1 then .error .deserialization else
  match (Matrix.new m lambda params.q).unmarshalBinary (data.take zbSize) with
  | .error e => .error e
  | .ok zb => .ok ⟨pk, zb, data.getD zbSize 0 == 1⟩

/-- `ParsePrivateKey` (the façade): requires a public key, then
`UnmarshalBinary`. -/
def parsePrivateKey (data : Bytes) (pk : PublicKey) : Except KemError PrivateKey :=
  PrivateKey.unmarshalBinary pk data

/-! ## Helper lemmas: the byte encodings -/

theorem natToBytesBE_length (w v : Nat) : (natToBytesBE w v).length = w := by
  induction w generalizing v with
  | zero => rfl
  | succ w ih => simp [natToBytesBE, ih]

theorem foldl_natToBytesBE (w : Nat) : ∀ v acc : Nat,
    (natToBytesBE w v).foldl (fun a x => a * 256 + x) acc =
      acc * 256 ^ w + v % 256 ^ w := by
  induction w with
  | zero => intro v acc; simp [natToBytesBE, Nat.mod_one]
  | succ w ih =>
    intro v acc
    rw [natToBytesBE, List.foldl_append, ih]
    simp only [List.foldl_cons, List.foldl_nil]
    have h : v % 256 ^ (w + 1) = v % 256 + 256 * (v / 256 % 256 ^ w) := by
      rw [pow_succ']
      exact Nat.mod_mul
    rw [h]; ring

theorem bytesToNatBE_natToBytesBE (w v : Nat) (h : v < 256 ^ w) :
    bytesToNatBE (natToBytesBE w v) = v := by
  unfold bytesToNatBE
  rw [foldl_natToBytesBE, Nat.zero_mul, Nat.zero_add, Nat.mod_eq_of_lt h]

theorem putUint32_length (n : Nat) : (putUint32 n).length = 4 := rfl

theorem readUint32_putUint32_append (n : Nat) (rest : Bytes) (h : n < 2 ^ 32) :
    readUint32 (putUint32 n ++ rest) = n := by
  simp only [putUint32, readUint32, List.cons_append, List.nil_append,
    List.getD_cons_zero, List.getD_cons_succ]
  omega

theorem flatten_map_length (el : Nat) (f : Nat → Bytes) (hf : ∀ x, (f x).length = el)
    (l : List Nat) : ((l.map f).flatten).length = l.length * el := by
  induction l with
  | nil => simp
  | cons a t ih => simp [hf, ih]; ring

theorem flatten_map_drop_take (el : Nat) (f : Nat → Bytes)
    (hf : ∀ x, (f x).length = el) (l : List Nat) (i : Nat) (hi : i < l.length) :
    (((l.map f).flatten).drop (i * el)).take el = f (l.get ⟨i, hi⟩) := by
  induction l generalizing i with
  | nil => simp at hi
  | cons a t ih =>
    cases i with
    | zero =>
      simp only [List.map_cons, List.flatten_cons, Nat.zero_mul, List.drop_zero,
        List.get]
      rw [← hf a, List.take_left]
    | succ i =>
      simp only [List.map_cons, List.flatten_cons, List.get]
      rw [show (i + 1) * el = (f a).length + i * el by rw [hf]; ring,
        List.drop_append]
      exact ih i (by simpa using hi)

/-! ## Helper lemmas: bit length and element width -/

theorem bitLenAux_lt (fuel n : Nat) (h : n ≤ fuel) : n < 2 ^ bitLenAux fuel n := by
  induction fuel generalizing n with
  | zero => interval_cases n; simp [bitLenAux]
  | succ fuel ih =>
    by_cases hn : n = 0
    · simp [bitLenAux, hn]
    · rw [bitLenAux, if_neg hn, pow_succ]
      have h2 : n / 2 ≤ fuel := by omega
      have := ih (n / 2) h2
      omega

theorem lt_two_pow_natBitLen (n : Nat) : n < 2 ^ natBitLen n :=
  bitLenAux_lt n n (Nat.le_refl n)

theorem lt_pow_elementSize (a q : Nat) (h : a < q) : a < 256 ^ elementSize q := by
  have h1 : q < 2 ^ natBitLen q := lt_two_pow_natBitLen q
  have h2 : 2 ^ natBitLen q ≤ 256 ^ elementSize q := by
    rw [show (256 : Nat) = 2 ^ 8 by norm_num, ← pow_mul]
    exact Nat.pow_le_pow_right (by norm_num) (by unfold elementSize; omega)
  omega

/-! ## Helper lemmas: vector marshal/unmarshal -/

theorem Vector.marshal_of_fits_v (v : Vector) (hval : ∀ a ∈ v.values, a < v.modulus) :
    v.marshalBinary =
      some (putUint32 v.length ++
        (v.values.map (natToBytesBE (elementSize v.modulus))).flatten) := by
  unfold Vector.marshalBinary
  rw [if_pos]
  rw [List.all_eq_true]
  intro a ha
  exact decide_eq_true (lt_pow_elementSize a v.modulus (hval a ha))

theorem Vector.marshal_length_v (v : Vector) (hval : ∀ a ∈ v.values, a < v.modulus) :
    ∃ bs, v.marshalBinary = some bs ∧ bs.length = v.encodedSize := by
  refine ⟨_, v.marshal_of_fits_v hval, ?_⟩
  rw [List.length_append, putUint32_length,
    flatten_map_length _ _ (fun x => natToBytesBE_length _ x), Vector.encodedSize,
    Vector.length]

theorem Vector.unmarshal_roundtrip_v (u v : Vector) (hmod : u.modulus = v.modulus)
    (hval : ∀ a ∈ v.values, a < v.modulus) (hlen : v.length < 2 ^ 32) :
    u.unmarshalBinary
        (putUint32 v.length ++
          (v.values.map (natToBytesBE (elementSize v.modulus))).flatten) =
      some ⟨v.values, v.modulus⟩ := by
  have hel := fun x => natToBytesBE_length (elementSize v.modulus) x
  have hdatalen : (putUint32 v.length ++
      (v.values.map (natToBytesBE (elementSize v.modulus))).flatten).length =
      4 + v.length * elementSize v.modulus := by
    rw [List.length_append, putUint32_length, flatten_map_length _ _ hel,
      Vector.length]
  unfold Vector.unmarshalBinary
  rw [if_neg (by omega), readUint32_putUint32_append _ _ hlen, hmod]
  rw [if_neg (by omega)]
  refine congrArg some ?_
  rw [Vector.mk.injEq]
  refine ⟨?_, rfl⟩
  show List.map _ (List.range v.values.length) = v.values
  apply List.ext_get
  · simp
  · intro i h1 h2
    simp only [List.get_map, List.get_range]
    have hdrop : (putUint32 v.length ++
        (v.values.map (natToBytesBE (elementSize v.modulus))).flatten).drop
          (4 + i * elementSize v.modulus) =
        ((v.values.map (natToBytesBE (elementSize v.modulus))).flatten).drop
          (i * elementSize v.modulus) := by
      rw [show (4 : Nat) + i * elementSize v.modulus =
        (putUint32 v.length).length + i * elementSize v.modulus by
          rw [putUint32_length],
        List.drop_append]
    rw [hdrop, flatten_map_drop_take _ _ hel _ i (by simpa using h2),
      bytesToNatBE_natToBytesBE _ _
        (lt_pow_elementSize _ _ (hval _ (List.get_mem _ _ _))),
      Nat.mod_eq_of_lt (hval _ (List.get_mem _ _ _))]

theorem flatten_map_drop_blocks {α : Type} (bl : Nat) (g : α → Bytes) (l : List α)
    (hg : ∀ row ∈ l, (g row).length = bl) (i : Nat) :
    ((l.map g).flatten).drop (i * bl) = ((l.drop i).map g).flatten := by
  induction l generalizing i with
  | nil => simp
  | cons a t ih =>
    cases i with
    | zero => simp
    | succ i =>
      simp only [List.map_cons, List.flatten_cons, List.drop_succ_cons]
      rw [show (i + 1) * bl = (g a).length + i * bl by rw [hg a (by simp)]; ring,
        List.drop_append]
      exact ih (fun row hr => hg row (by simp [hr])) i

theorem take_drop_append_of_le (a b : Bytes) (k el : Nat) (h : k + el ≤ a.length) :
    ((a ++ b).drop k).take el = (a.drop k).take el := by
  rw [List.drop_append_of_le_length (by omega), List.take_append_of_le_length (by simp; omega)]

theorem matrix_blocks_extract (el cols : Nat) (values : List (List Nat))
    (hrow : ∀ row ∈ values, row.length = cols) (i j : Nat)
    (hi : i < values.length) (hj : j < cols) :
    (((values.map (fun row => (row.map (natToBytesBE el)).flatten)).flatten).drop
        ((i * cols + j) * el)).take el =
      natToBytesBE el ((values.getD i []).getD j 0) := by
  have hbl : ∀ row ∈ values, ((row.map (natToBytesBE el)).flatten).length = cols * el :=
    fun row hr => by
      rw [flatten_map_length _ _ (fun x => natToBytesBE_length _ x), hrow row hr]
  rw [show (i * cols + j) * el = i * (cols * el) + j * el by ring, ← List.drop_drop]
  rw [flatten_map_drop_blocks _ _ _ hbl]
  obtain ⟨row, rest, hsplit⟩ : ∃ row rest, values.drop i = row :: rest := by
    cases h : values.drop i with
    | nil => exfalso; have := List.length_drop i values; rw [h] at this; simp at this; omega
    | cons r t => exact ⟨r, t, rfl⟩
  have hrowmem : row ∈ values := by
    have : row ∈ values.drop i := by rw [hsplit]; simp
    exact List.mem_of_mem_drop this
  have hget : values.getD i [] = row := by
    have h1 : values.getD i [] = (values.drop i).getD 0 [] := by
      rw [List.getD_eq_getElem?_getD, List.getD_eq_getElem?_getD, List.getElem?_drop]
      simp
    rw [h1, hsplit]; rfl
  rw [hsplit, hget]
  simp only [List.map_cons, List.flatten_cons]
  rw [take_drop_append_of_le _ _ _ _ (by
    rw [flatten_map_length _ _ (fun x => natToBytesBE_length _ x), hrow row hrowmem]
    calc j * el + el = (j + 1) * el := by ring
    _ ≤ cols * el := Nat.mul_le_mul_right el hj)]
  have hj' : j < row.length := by rw [hrow row hrowmem]; exact hj
  rw [flatten_map_drop_take el (natToBytesBE el) (fun x => natToBytesBE_length _ x) row j hj']
  congr 1
  rw [List.get_eq_getElem, List.getD_eq_getElem?_getD, List.getElem?_eq_getElem hj',
    Option.getD_some]



theorem Matrix.marshal_of_fits_m (m : Matrix)
    (hval : ∀ row ∈ m.values, ∀ a ∈ row, a < m.modulus) :
    m.marshalBinary =
      some (putUint32 m.rows ++ putUint32 m.cols ++
        (m.values.map (fun row =>
          (row.map (natToBytesBE (elementSize m.modulus))).flatten)).flatten) := by
  unfold Matrix.marshalBinary
  rw [if_pos]
  rw [List.all_eq_true]
  intro row hrow
  rw [List.all_eq_true]
  intro a ha
  exact decide_eq_true (lt_pow_elementSize a m.modulus (hval row hrow a ha))

theorem flatten_map_length_mem {α : Type} (bl : Nat) (g : α → Bytes) (l : List α)
    (hg : ∀ x ∈ l, (g x).length = bl) : ((l.map g).flatten).length = l.length * bl := by
  induction l with
  | nil => simp
  | cons a t ih =>
    simp only [List.map_cons, List.flatten_cons, List.length_append, List.length_cons]
    rw [hg a (by simp), ih (fun x hx => hg x (by simp [hx]))]
    ring

theorem Matrix.marshal_length_m (m : Matrix)
    (hWFr : m.values.length = m.rows) (hWFc : ∀ row ∈ m.values, row.length = m.cols)
    (hval : ∀ row ∈ m.values, ∀ a ∈ row, a < m.modulus) :
    ∃ bs, m.marshalBinary = some bs ∧ bs.length = m.encodedSize := by
  refine ⟨_, m.marshal_of_fits_m hval, ?_⟩
  rw [List.length_append, List.length_append, putUint32_length, putUint32_length,
    flatten_map_length_mem (m.cols * elementSize m.modulus) _ _ (fun row hr => by
      rw [flatten_map_length _ _ (fun x => natToBytesBE_length _ x), hWFc row hr]),
    hWFr, Matrix.encodedSize]
  ring



theorem int64OfNat_le_self (n : Nat) : int64OfNat n ≤ (n : Int) := by
  unfold int64OfNat
  have h1 : (n % 2 ^ 64 : Nat) ≤ n := Nat.mod_le _ _
  have h2 : ((n % 2 ^ 64 : Nat) : Int) ≤ (n : Int) := by exact_mod_cast h1
  split <;> omega

theorem Matrix.unmarshal_roundtrip_m (u m : Matrix) (rest : Bytes)
    (hmod : u.modulus = m.modulus)
    (hWFr : m.values.length = m.rows) (hWFc : ∀ row ∈ m.values, row.length = m.cols)
    (hval : ∀ row ∈ m.values, ∀ a ∈ row, a < m.modulus)
    (hrows : m.rows < 2 ^ 32) (hcols : m.cols < 2 ^ 32) :
    u.unmarshalBinary
        ((putUint32 m.rows ++ putUint32 m.cols ++
          (m.values.map (fun row =>
            (row.map (natToBytesBE (elementSize m.modulus))).flatten)).flatten) ++ rest) =
      .ok ⟨m.rows, m.cols, m.values, m.modulus⟩ := by
  obtain ⟨el, hel⟩ : ∃ el, elementSize m.modulus = el := ⟨_, rfl⟩
  obtain ⟨F, hF⟩ : ∃ F, (m.values.map (fun row =>
      (row.map (natToBytesBE el)).flatten)).flatten = F := ⟨_, rfl⟩
  rw [hel, hF]
  have hFlen : F.length = m.rows * (m.cols * el) := by
    rw [← hF, flatten_map_length_mem (m.cols * el) _ _ (fun row hr => by
      rw [flatten_map_length _ _ (fun x => natToBytesBE_length _ x), hWFc row hr]), hWFr]
  have hdata : (putUint32 m.rows ++ putUint32 m.cols ++ F) ++ rest =
      putUint32 m.rows ++ (putUint32 m.cols ++ (F ++ rest)) := by simp
  have hlen : ((putUint32 m.rows ++ putUint32 m.cols ++ F) ++ rest).length =
      8 + m.rows * m.cols * el + rest.length := by
    simp [putUint32_length, hFlen]; ring
  unfold Matrix.unmarshalBinary
  rw [if_neg (by omega)]
  rw [hdata, readUint32_putUint32_append _ _ hrows]
  have hdrop4 : (putUint32 m.rows ++ (putUint32 m.cols ++ (F ++ rest))).drop 4 =
      putUint32 m.cols ++ (F ++ rest) := by
    rw [show (4 : Nat) = (putUint32 m.rows).length by rw [putUint32_length],
      List.drop_left]
  rw [hdrop4, readUint32_putUint32_append _ _ hcols, hmod, hel]
  rw [if_neg (by
    rw [← hdata, hlen]
    have hb := int64OfNat_le_self (8 + m.rows * m.cols * el)
    push_cast at hb ⊢
    omega)]
  rw [if_neg (by rw [← hdata]; omega)]
  refine congrArg Except.ok ?_
  rw [Matrix.mk.injEq]
  refine ⟨rfl, rfl, ?_, rfl⟩
  have hdrop8 : ∀ k, (putUint32 m.rows ++ (putUint32 m.cols ++ (F ++ rest))).drop (8 + k) =
      (F ++ rest).drop k := by
    intro k
    rw [show 8 + k = (putUint32 m.rows).length + ((putUint32 m.cols).length + k) by
      simp [putUint32_length]; omega, List.drop_append, List.drop_append]
  apply List.ext_get
  · simp [hWFr]
  · intro i h1 h2
    simp only [List.get_map, List.get_range]
    have hi : i < m.values.length := by rw [hWFr]; simpa using h1
    have hrowmem : m.values.get ⟨i, hi⟩ ∈ m.values := List.get_mem _ _ _
    apply List.ext_get
    · simp only [List.length_map, List.length_range]
      exact (hWFc _ (List.get_mem _ _ _)).symm
    · intro j hj1 hj2
      have hj : j < m.cols := by simpa using hj1
      simp only [List.get_map, List.get_range]
      rw [hdrop8, take_drop_append_of_le _ _ _ _ (by
        rw [hFlen]
        have h4 : i * m.cols + j + 1 ≤ m.rows * m.cols := by
          have h3 : i + 1 ≤ m.rows := by omega
          calc i * m.cols + j + 1 ≤ i * m.cols + m.cols := by omega
          _ = (i + 1) * m.cols := by ring
          _ ≤ m.rows * m.cols := Nat.mul_le_mul h3 (Nat.le_refl _)
        calc (i * m.cols + j) * el + el = (i * m.cols + j + 1) * el := by ring
        _ ≤ m.rows * m.cols * el := Nat.mul_le_mul h4 (Nat.le_refl _)
        _ = m.rows * (m.cols * el) := by ring)]
      have hext := matrix_blocks_extract el m.cols m.values hWFc i j hi hj
      rw [hF] at hext
      rw [hext]
      have hgetDi : m.values.getD i [] = m.values.get ⟨i, hi⟩ := by
        rw [List.getD_eq_getElem?_getD, List.getElem?_eq_getElem hi, Option.getD_some]
        rfl
      have hj2' : j < (m.values.get ⟨i, hi⟩).length := by rw [hWFc _ hrowmem]; exact hj
      have hgetDj : (m.values.get ⟨i, hi⟩).getD j 0 =
          (m.values.get ⟨i, hi⟩).get ⟨j, hj2'⟩ := by
        rw [List.getD_eq_getElem?_getD, List.getElem?_eq_getElem hj2', Option.getD_some]
        rfl
      rw [hgetDi, hgetDj]
      have hlt : (m.values.get ⟨i, hi⟩).get ⟨j, hj2'⟩ < m.modulus :=
        hval _ hrowmem _ (List.get_mem _ _ _)
      rw [bytesToNatBE_natToBytesBE _ _ (by rw [← hel]; exact lt_pow_elementSize _ _ hlt),
        Nat.mod_eq_of_lt hlt]

theorem map_range_mod_one (f : Nat → Nat) (k : Nat) :
    (List.range k).map (fun i => f i % 1) = List.replicate k 0 := by
  rw [List.map_congr_left (g := fun _ => 0) (fun a _ => Nat.mod_one _), List.map_const']
  simp

theorem map_mod_one (f : Nat → Nat) (l : List Nat) :
    l.map (fun i => f i % 1) = List.replicate l.length 0 := by
  rw [List.map_congr_left (g := fun _ => 0) (fun a _ => Nat.mod_one _), List.map_const']

/-- `roundVector` always returns the all-zero vector (with modulus 1):
the chosen bit is stored through `Set` into a modulus-1 vector. -/
theorem roundVector_values (v : Vector) (q : Nat) :
    roundVector v q = ⟨List.replicate v.values.length 0, 1⟩ := by
  unfold roundVector
  refine congrArg (fun l => Vector.mk l 1) ?_
  exact map_mod_one _ v.values

/-- C3: the claim states that for each candidate `m` the calculator sets
`logQ = clamp(m/(2n), 60, 62)`.  Counterexample at security level 256: the
first (and only) candidate is `m = 262144` with `n = 2048`, where
`m/(2n) = 64`; the clamp is 62, but the code computes
`min(60, max(62, 64)) = 60`. -/
theorem calcLogQ_clamp_counterexample :
    firstCandidateM 256 = 262144 ∧
    calcLogQ (firstCandidateM 256) (8 * 256) = 60 ∧
    clampSpec (firstCandidateM 256 / (2 * (8 * 256))) 60 62 = 62 ∧
    calcLogQ (firstCandidateM 256) (8 * 256) ≠
      clampSpec (firstCandidateM 256 / (2 * (8 * 256))) 60 62 := by
  refine ⟨by decide, by decide, by decide, by decide⟩

/-- C3 (amended): `logQ = min(60, max(62, m/(2n)))` evaluates to 60 for
every candidate, so the prime generator is always invoked with
`bitSize = logQ + 1 = 61` (and `nthRoot = 2m`). -/
theorem calcLogQ_constant (m n : Nat) :
    calcLogQ m n = 60 ∧ primeGenBitSize m n = 61 := by
  unfold primeGenBitSize calcLogQ
  omega

/-- C8: the claim states the rounding rule `0` iff
`min(v, q−v) ≤ |v − ⌊q/2⌋|`.  The code computes these distances but stores
the chosen bit through `Set` into a vector created with modulus 1, which
reduces both 0 and 1 to 0: at `q = 5`, `v = 2` (distance 0 to `⌊q/2⌋`,
distance 2 to 0) the rule demands bit 1, yet `roundVector` returns 0 —
indeed it returns the all-zero vector on every input. -/
theorem roundVector_code_bug :
    (∀ (v : Vector) (q : Nat),
      (roundVector v q).values = List.replicate v.values.length 0) ∧
    roundVector ⟨[2], 5⟩ 5 = ⟨[0], 1⟩ ∧
    roundBitSpec 5 2 = 1 ∧
    (roundVector ⟨[2], 5⟩ 5).get 0 ≠ roundBitSpec 5 2 := by
  refine ⟨fun v q => by rw [roundVector_values], by decide, by decide, by decide⟩

/-- C2: the branch assignment.  `GenerateKeyPair` (`kem.go`) matches the
claim: `b = 0` gives `(U0, U1) = (A·Zb, W)` and `b = 1` gives `(W, A·Zb)`.
The legacy `InitKey` (`internal/ccakem.go` lines 116–124) violates it: on
`b = 0` it assigns the uniform matrix to BOTH `U0` and `U1` (discarding
`A·Zb` entirely), and on `b = 1` it assigns `A·Zb` to `U0` instead of
`U1`.  Evaluated here at distinct concrete matrices. -/
theorem initKey_branch_assignment_bug :
    (∀ (az w : Matrix), pkgSetU false az w = (az, w) ∧ pkgSetU true az w = (w, az)) ∧
    initKeySetU false ⟨1, 1, [[1]], 2⟩ ⟨1, 1, [[0]], 2⟩ =
      (⟨1, 1, [[0]], 2⟩, ⟨1, 1, [[0]], 2⟩) ∧
    initKeySetU true ⟨1, 1, [[1]], 2⟩ ⟨1, 1, [[0]], 2⟩ =
      (⟨1, 1, [[1]], 2⟩, ⟨1, 1, [[0]], 2⟩) ∧
    ¬ ((initKeySetU false ⟨1, 1, [[1]], 2⟩ ⟨1, 1, [[0]], 2⟩).1 = ⟨1, 1, [[1]], 2⟩ ∨
       (initKeySetU false ⟨1, 1, [[1]], 2⟩ ⟨1, 1, [[0]], 2⟩).2 = ⟨1, 1, [[1]], 2⟩) := by
  refine ⟨fun az w => ⟨rfl, rfl⟩, by decide, by decide, by decide⟩

/-- C7: the claim holds for the active `pkg` implementation — whenever any
of the four verification predicates of `decapChecks` (the verification
stage of `decapsulate`) fails, the result is the one error value
`ErrDecapsulationFailed` — but it FAILS for the claim's other cited
source, the legacy `internal/ccakem.go` `DecapsulateTo`: its check stage
returns four pairwise-distinct error values whose messages name the
failing check (exhibited here at states in which exactly one check
fails), so there the error does reveal which check rejected the
ciphertext. -/
theorem decapChecks_error_disclosure :
    (∀ (x xPrime : Vector) (cnb cnbCalculated : Bytes)
        (hbPrime hb hatHnbPrime hatHnb : Vector) (sharedKey : Bytes),
      ¬ (x.equal xPrime = true ∧ cnb = cnbCalculated ∧ hbPrime.equal hb = true ∧
          hatHnbPrime.equal hatHnb = true) →
      decapChecks x xPrime cnb cnbCalculated hbPrime hb hatHnbPrime hatHnb
          sharedKey =
        .error .decapsulationFailed) ∧
    internalDecapChecks ⟨[0], 2⟩ ⟨[1], 2⟩ [0] [0] [0] ⟨[0], 1⟩ ⟨[0], 1⟩ ⟨[0], 2⟩
        ⟨[0], 2⟩ =
      .error "decap failed, check x = A^t * s + e failed" ∧
    internalDecapChecks ⟨[0], 2⟩ ⟨[0], 2⟩ [1] [0] [0] ⟨[0], 1⟩ ⟨[0], 1⟩ ⟨[0], 2⟩
        ⟨[0], 2⟩ =
      .error "decap failed, check hatKnb xor R = cnb failed" ∧
    internalDecapChecks ⟨[0], 2⟩ ⟨[0], 2⟩ [0] [0] [0] ⟨[1], 1⟩ ⟨[0], 1⟩ ⟨[0], 2⟩
        ⟨[0], 2⟩ =
      .error "decap failed, check hb = hb_ failed" ∧
    internalDecapChecks ⟨[0], 2⟩ ⟨[0], 2⟩ [0] [0] [0] ⟨[0], 1⟩ ⟨[0], 1⟩ ⟨[1], 2⟩
        ⟨[0], 2⟩ =
      .error "decap failed, check hatHnb = hatHnb_ failed" ∧
    ([
      "decap failed, check x = A^t * s + e failed",
      "decap failed, check hatKnb xor R = cnb failed",
      "decap failed, check hb = hb_ failed",
      "decap failed, check hatHnb = hatHnb_ failed"] : List String).Pairwise
        (fun a b => a ≠ b) := by
  refine ⟨?_, by rfl, by rfl, by rfl, by rfl, by decide⟩
  intro x xPrime cnb cnbCalculated hbPrime hb hatHnbPrime hatHnb sharedKey h
  unfold decapChecks
  by_cases h1 : x.equal xPrime = true <;> by_cases h2 : cnb = cnbCalculated <;>
    by_cases h3 : hbPrime.equal hb = true <;>
    by_cases h4 : hatHnbPrime.equal hatHnb = true <;> simp_all

theorem elementSize_of_bitLen61 (q : Nat) (hq : natBitLen q = 61) :
    elementSize q = 8 := by
  unfold elementSize; rw [hq]

/-- C4: sizes at the OWChCCA-16 parameter set (`λ = 16`, `n = 128`,
`m = 8192`, and a 61-bit modulus, as produced by the downstream prime
search with `bitSize = 61`).  The recorded `Parameters.CiphertextSize` is
65548 — it counts each `hatH` component as `λ/8 = 2` bytes — while the
spec formula (with `hSize = 4 + λ·elSize = 132`) gives 65808, and the
byte string built by `constructCiphertext` (hence by `Encapsulate`) has
exactly 65808 bytes.  The repository's own `TestKEMConsistency` asserts
`len(ct) == CiphertextSize`. -/
theorem ciphertextSize_code_bug (q : Nat) (x hatH0 hatH1 : Vector) (c0 c1 : Bytes)
    (hq : natBitLen q = 61) (hc0 : c0.length = 2) (hc1 : c1.length = 2)
    (hx : x.modulus = q) (hxlen : x.length = 8192) (hxval : ∀ a ∈ x.values, a < q)
    (hh0 : hatH0.modulus = q) (hh0len : hatH0.length = 16)
    (hh0val : ∀ a ∈ hatH0.values, a < q)
    (hh1 : hatH1.modulus = q) (hh1len : hatH1.length = 16)
    (hh1val : ∀ a ∈ hatH1.values, a < q) :
    ciphertextSizeCalc 16 8192 q = 65548 ∧
    ciphertextBytesSpec 16 8192 q = 65808 ∧
    ciphertextSizeCalc 16 8192 q ≠ ciphertextBytesSpec 16 8192 q ∧
    ∃ ct, constructCiphertext c0 c1 x hatH0 hatH1 = some ct ∧ ct.length = 65808 := by
  have hel := elementSize_of_bitLen61 q hq
  refine ⟨?_, ?_, ?_, ?_⟩
  · unfold ciphertextSizeCalc; rw [hel]
  · unfold ciphertextBytesSpec; rw [hel]
  · unfold ciphertextSizeCalc ciphertextBytesSpec; rw [hel]; norm_num
  · obtain ⟨xB, hxB, hxBlen⟩ := x.marshal_length_v (by rw [hx]; exact hxval)
    obtain ⟨h0B, hh0B, hh0Blen⟩ := hatH0.marshal_length_v (by rw [hh0]; exact hh0val)
    obtain ⟨h1B, hh1B, hh1Blen⟩ := hatH1.marshal_length_v (by rw [hh1]; exact hh1val)
    refine ⟨c0 ++ c1 ++ xB ++ h0B ++ h1B, ?_, ?_⟩
    · unfold constructCiphertext
      rw [hxB, hh0B, hh1B]
    · rw [Vector.encodedSize, hxlen, hx, hel] at hxBlen
      rw [Vector.encodedSize, hh0len, hh0, hel] at hh0Blen
      rw [Vector.encodedSize, hh1len, hh1, hel] at hh1Blen
      simp [List.length_append, hc0, hc1, hxBlen, hh0Blen, hh1Blen]

/-- Witness for `ciphertextSize_code_bug`, at `q = 2^60` (the modulus of
the OWChCCA-16 set lies in `[2^60, 2^61)`; only its bit length enters the
formulas) and all-zero vectors. -/
theorem ciphertextSize_code_bug_witness :
    ciphertextSizeCalc 16 8192 (2 ^ 60) = 65548 ∧
    ciphertextBytesSpec 16 8192 (2 ^ 60) = 65808 ∧
    ciphertextSizeCalc 16 8192 (2 ^ 60) ≠ ciphertextBytesSpec 16 8192 (2 ^ 60) ∧
    ∃ ct, constructCiphertext [0, 0] [0, 0] ⟨List.replicate 8192 0, 2 ^ 60⟩
        ⟨List.replicate 16 0, 2 ^ 60⟩ ⟨List.replicate 16 0, 2 ^ 60⟩ = some ct ∧
      ct.length = 65808 :=
  ciphertextSize_code_bug (2 ^ 60) ⟨List.replicate 8192 0, 2 ^ 60⟩
    ⟨List.replicate 16 0, 2 ^ 60⟩ ⟨List.replicate 16 0, 2 ^ 60⟩ [0, 0] [0, 0]
    (by decide) rfl rfl rfl (by rw [Vector.length, List.length_replicate]) (by
      intro a ha
      rw [List.eq_of_mem_replicate ha]
      positivity)
    rfl (by rw [Vector.length, List.length_replicate]) (by
      intro a ha
      rw [List.eq_of_mem_replicate ha]
      positivity)
    rfl (by rw [Vector.length, List.length_replicate]) (by
      intro a ha
      rw [List.eq_of_mem_replicate ha]
      positivity)



/-- C5: sizes at the OWChCCA-16 parameter set.  The recorded
`Parameters.PrivateKeySize` is `zbSize + 1 + PublicKeySize = 9469985`,
while the spec formula `(8 + m·λ·elSize) + 1` gives 1048585, and
`PrivateKey.Bytes` produces exactly `encode(Zb) ∥ byte(b)` of length
1048585.  The repository's own `TestKEMConsistency` asserts
`len(sk.Bytes()) == PrivateKeySize`. -/
theorem privateKeySize_code_bug (q : Nat) (sk : PrivateKey)
    (hq : natBitLen q = 61) (hmod : sk.zb.modulus = q)
    (hWFr : sk.zb.values.length = sk.zb.rows) (hrows : sk.zb.rows = 8192)
    (hWFc : ∀ row ∈ sk.zb.values, row.length = sk.zb.cols) (hcols : sk.zb.cols = 16)
    (hval : ∀ row ∈ sk.zb.values, ∀ a ∈ row, a < q) :
    privateKeySizeCalc 16 128 8192 q = 9469985 ∧
    privateKeyBytesSpec 16 8192 q = 1048585 ∧
    privateKeySizeCalc 16 128 8192 q ≠ privateKeyBytesSpec 16 8192 q ∧
    ∃ bs, sk.bytes = some bs ∧ bs.length = 1048585 ∧
      bs = sk.zb.marshalBinary.getD [] ++ [if sk.b then 1 else 0] := by
  have hel := elementSize_of_bitLen61 q hq
  refine ⟨?_, ?_, ?_, ?_⟩
  · unfold privateKeySizeCalc publicKeySizeCalc; rw [hel]; norm_num
  · unfold privateKeyBytesSpec; rw [hel]
  · unfold privateKeySizeCalc publicKeySizeCalc privateKeyBytesSpec
    rw [hel]; norm_num
  · obtain ⟨zbB, hzbB, hzbBlen⟩ :=
      sk.zb.marshal_length_m hWFr hWFc (by rw [hmod]; exact hval)
    refine ⟨zbB ++ [if sk.b then 1 else 0], ?_, ?_, ?_⟩
    · unfold PrivateKey.bytes
      rw [hzbB]
      rfl
    · rw [Matrix.encodedSize, hrows, hcols, hmod, hel] at hzbBlen
      simp [List.length_append, hzbBlen]
    · rw [hzbB]
      rfl

/-- Witness for `privateKeySize_code_bug`, at `q = 2^60` and the all-zero
`8192 × 16` secret matrix. -/
theorem privateKeySize_code_bug_witness :
    privateKeySizeCalc 16 128 8192 (2 ^ 60) = 9469985 ∧
    privateKeyBytesSpec 16 8192 (2 ^ 60) = 1048585 ∧
    privateKeySizeCalc 16 128 8192 (2 ^ 60) ≠ privateKeyBytesSpec 16 8192 (2 ^ 60) ∧
    ∃ bs, PrivateKey.bytes ⟨⟨⟨"OWChCCA-16", 128, 8192, 16, 3, 2 ^ 60, 2, 0, 0, 0⟩,
        ⟨128, 8192, [], 2 ^ 60⟩, ⟨128, 16, [], 2 ^ 60⟩, ⟨128, 16, [], 2 ^ 60⟩⟩,
        ⟨8192, 16, List.replicate 8192 (List.replicate 16 0), 2 ^ 60⟩, false⟩ = some bs ∧
      bs.length = 1048585 ∧
      bs = (Matrix.marshalBinary
          ⟨8192, 16, List.replicate 8192 (List.replicate 16 0), 2 ^ 60⟩).getD [] ++
        [if false then 1 else 0] :=
  privateKeySize_code_bug (2 ^ 60)
    ⟨⟨⟨"OWChCCA-16", 128, 8192, 16, 3, 2 ^ 60, 2, 0, 0, 0⟩,
      ⟨128, 8192, [], 2 ^ 60⟩, ⟨128, 16, [], 2 ^ 60⟩, ⟨128, 16, [], 2 ^ 60⟩⟩,
      ⟨8192, 16, List.replicate 8192 (List.replicate 16 0), 2 ^ 60⟩, false⟩
    (by decide) rfl (by rw [List.length_replicate]) rfl
    (fun row hrow => by rw [List.eq_of_mem_replicate hrow, List.length_replicate]) rfl
    (fun row hrow a ha => by
      rw [List.eq_of_mem_replicate hrow] at ha
      rw [List.eq_of_mem_replicate ha]
      positivity)

theorem sliceTo_eq (l : Bytes) (k : Nat) (h : k ≤ l.length) :
    sliceTo l k = some (l.take k) := by
  unfold sliceTo; rw [if_pos h]

theorem take_length_of_le (l : Bytes) (k : Nat) (h : k ≤ l.length) :
    (l.take k).length = k := by
  rw [List.length_take]; omega

/-- Under the length contract of the XOF and byte-aligned sizes,
`expandSeed` succeeds; `h0` and `h1` are the all-zero modulus-1 vectors
(the `Set`-mod-1 finding), `s` has length `n` and modulus
`2^(logEta+1) − 1`, and `rho` has `lambda/8` bytes. -/
theorem expandSeed_eq (pr : Prims) (seed : Bytes) (n lambda logEta : Nat)
    (hX : ∀ x k, (pr.xof x k).length = k)
    (hl8 : lambda % 8 = 0) (hs8 : n * (logEta + 1) % 8 = 0) :
    expandSeed pr seed n lambda logEta =
        some (⟨expandSVals pr seed n lambda logEta, 2 ^ (logEta + 1) - 1⟩,
          expandRho pr seed n lambda logEta, ⟨List.replicate lambda 0, 1⟩,
          ⟨List.replicate lambda 0, 1⟩) ∧
      (expandSVals pr seed n lambda logEta).length = n ∧
      (expandRho pr seed n lambda logEta).length = lambda / 8 := by
  have htot := hX (pr.h256 seed)
    (n * (logEta + 1) / 8 + lambda / 8 + lambda / 8 + lambda / 8)
  have hsBits : ((pr.xof (pr.h256 seed)
      (n * (logEta + 1) / 8 + lambda / 8 + lambda / 8 + lambda / 8)).take
        (n * (logEta + 1) / 8)).length = n * (logEta + 1) / 8 := by
    rw [List.length_take, htot]; omega
  have hs : bytesToVector ((pr.xof (pr.h256 seed)
      (n * (logEta + 1) / 8 + lambda / 8 + lambda / 8 + lambda / 8)).take
        (n * (logEta + 1) / 8)) n (logEta + 1) =
      some ⟨(List.range n).map (fun i =>
          (readBitsLoop (logEta + 1)
              ((pr.xof (pr.h256 seed)
                (n * (logEta + 1) / 8 + lambda / 8 + lambda / 8 + lambda / 8)).take
                  (n * (logEta + 1) / 8))
              (i * (logEta + 1) / 8) (i * (logEta + 1) % 8) (logEta + 1) 0 &&&
            (2 ^ (logEta + 1) - 1)) % (2 ^ (logEta + 1) - 1)),
        2 ^ (logEta + 1) - 1⟩ := by
    unfold bytesToVector
    rw [if_neg (by rw [hsBits]; omega)]
  have hh0len : (((pr.xof (pr.h256 seed)
      (n * (logEta + 1) / 8 + lambda / 8 + lambda / 8 + lambda / 8)).drop
        (n * (logEta + 1) / 8 + lambda / 8)).take (lambda / 8)).length =
      lambda / 8 := by
    rw [List.length_take, List.length_drop, htot]; omega
  have hh1len : ((pr.xof (pr.h256 seed)
      (n * (logEta + 1) / 8 + lambda / 8 + lambda / 8 + lambda / 8)).drop
        (n * (logEta + 1) / 8 + lambda / 8 + lambda / 8)).length = lambda / 8 := by
    rw [List.length_drop, htot]; omega
  have hbin : ∀ data : Bytes, data.length = lambda / 8 →
      bytesToBinaryVector data lambda = some ⟨List.replicate lambda 0, 1⟩ := by
    intro data hd
    unfold bytesToBinaryVector
    rw [if_neg (by rw [hd]; omega)]
    refine congrArg some ?_
    refine congrArg (fun l => Vector.mk l 1) ?_
    exact map_range_mod_one _ lambda
  refine ⟨?_, ?_, ?_⟩
  · unfold expandSeed
    rw [hs, hbin _ hh0len, hbin _ hh1len]
    rfl
  · unfold expandSVals
    simp
  · unfold expandRho
    rw [List.length_take, List.length_drop, htot]; omega

/-- `parseCiphertext` never faults and every error it returns is
`InvalidCiphertext`. -/
theorem parseCiphertext_errors (ct : Bytes) (m lambda q : Nat) :
    (∃ out, parseCiphertext ct m lambda q = .ok out) ∨
      parseCiphertext ct m lambda q = .error .invalidCiphertext := by
  unfold parseCiphertext
  dsimp only
  repeat' split
  all_goals first
    | exact Or.inr rfl
    | exact Or.inl ⟨_, rfl⟩

theorem decapChecks_ne_crash (x xPrime : Vector) (cnb cnbCalculated : Bytes)
    (hbPrime hb hatHnbPrime hatHnb : Vector) (sharedKey : Bytes) :
    decapChecks x xPrime cnb cnbCalculated hbPrime hb hatHnbPrime hatHnb sharedKey ≠
      .error .crash := by
  unfold decapChecks
  repeat' split
  all_goals simp

/-- C6 counterexample: a 31-byte ciphertext for a small parameter set
(`n = 8`, `m = 1`, `λ = 8`, `q = 3`) whose embedded `x` length prefix is 0
instead of `m = 1` while every segment fits.  `parseCiphertext` accepts it
(no prefix-vs-parameters comparison), and `Decapsulate` then fails inside
`Zb^T·x` with the `InvalidDimensions` error — which is neither
`InvalidCiphertext` nor `DecapsulationFailed`. -/
theorem decapsulate_prefix_mismatch :
    decapsulate
        ⟨fun _ => List.replicate 32 0, fun _ k => List.replicate k 0,
          fun len _ => List.replicate len 0⟩
        ⟨"X", 8, 1, 8, 0, 3, 1, 0, 0, 0⟩
        ⟨⟨⟨"X", 8, 1, 8, 0, 3, 1, 0, 0, 0⟩, ⟨8, 1, List.replicate 8 [0], 3⟩,
            ⟨8, 8, List.replicate 8 (List.replicate 8 0), 3⟩,
            ⟨8, 8, List.replicate 8 (List.replicate 8 0), 3⟩⟩,
          ⟨1, 8, [[0, 0, 0, 0, 0, 0, 0, 0]], 3⟩, false⟩
        ([0] ++ [0] ++ [0, 0, 0, 0, 7] ++ ([0, 0, 0, 8] ++ List.replicate 8 0) ++
          ([0, 0, 0, 8] ++ List.replicate 8 0)) = .error .invalidDimensions ∧
    readUint32 [0, 0, 0, 0, 7] = 0 ∧ (0 : Nat) ≠ 1 ∧
    KemError.invalidDimensions ≠ KemError.invalidCiphertext ∧
    KemError.invalidDimensions ≠ KemError.decapsulationFailed := by
  refine ⟨by rfl, by decide, by decide, by decide, by decide⟩

theorem hash3_length (pr : Prims) (hH : ∀ x, (pr.h256 x).length = 32)
    (x hatH h : Vector) : (hash3 pr x hatH h).length = 32 := hH _

/-- C6 (amended): for any private key and ANY byte string, the embedded
`Decapsulate` never reaches a runtime fault: it returns a shared secret or
one of the error values (`InvalidCiphertext` from parsing,
`InvalidDimensions` from the arithmetic layer, or `DecapsulationFailed`
from the four checks).  The hypotheses are the primitive output-length
contracts and the byte-alignment facts that hold for every shipped
parameter set. -/
theorem decapsulate_no_crash (pr : Prims) (P : Params) (sk : PrivateKey)
    (hH : ∀ x, (pr.h256 x).length = 32)
    (hX : ∀ x k, (pr.xof x k).length = k)
    (hl8 : P.lambda % 8 = 0) (hl256 : P.lambda ≤ 256)
    (hs8 : P.n * (P.logEta + 1) % 8 = 0) :
    ∀ ct : Bytes, decapsulate pr P sk ct ≠ .error .crash := by
  intro ct
  unfold decapsulate
  rcases parseCiphertext_errors ct P.m P.lambda P.q with ⟨out, hok⟩ | herr
  · rw [hok]
    obtain ⟨c0, c1, x, hatH0, hatH1⟩ := out
    have hslice : ∀ v w : Vector, sliceTo (hash3 pr x v w) (P.lambda / 8) =
        some ((hash3 pr x v w).take (P.lambda / 8)) := fun v w =>
      sliceTo_eq _ _ (by rw [hash3_length pr hH]; omega)
    cases hb : sk.b <;>
    · dsimp only
      split
      · simp
      · split
        · simp
        · rw [hslice]
          dsimp only
          rw [(expandSeed_eq pr _ P.n P.lambda P.logEta hX hl8 hs8).1]
          dsimp only
          split
          · simp
          · split
            · simp
            · rw [hslice]
              dsimp only
              split
              · simp
              · split
                · simp
                · exact decapChecks_ne_crash _ _ _ _ _ _ _ _ _
  · rw [herr]
    simp

/-- Witness for `decapsulate_no_crash` at a concrete private key and
ciphertext. -/
theorem decapsulate_no_crash_witness :
    decapsulate
        ⟨fun _ => List.replicate 32 0, fun _ k => List.replicate k 0,
          fun len _ => List.replicate len 0⟩
        ⟨"X", 8, 1, 8, 0, 3, 1, 0, 0, 0⟩
        ⟨⟨⟨"X", 8, 1, 8, 0, 3, 1, 0, 0, 0⟩, ⟨8, 1, List.replicate 8 [0], 3⟩,
            ⟨8, 8, List.replicate 8 (List.replicate 8 0), 3⟩,
            ⟨8, 8, List.replicate 8 (List.replicate 8 0), 3⟩⟩,
          ⟨1, 8, [[0, 0, 0, 0, 0, 0, 0, 0]], 3⟩, false⟩
        [1, 2, 3] ≠ .error .crash :=
  decapsulate_no_crash _ _ _ (fun _ => by simp) (fun _ k => by simp)
    (by decide) (by decide) (by decide) [1, 2, 3]

/-- C10 counterexample: for a small parameter set (`n = m = λ = 1`,
`q = 2`, recorded public-key size 27), a buffer of exactly the expected 27
bytes whose first embedded dimension prefixes declare a `65536 × 65536`
matrix is REJECTED by `PublicKey.UnmarshalBinary` with a `Deserialization`
error: the declared dimensions need `8 + 2^32` bytes, the `int64`
computation does not overflow, and the in-range guard fires.  So "every
buffer of length ≥ the expected size succeeds, and only shorter buffers
are rejected" is false.  The all-0xFF buffer of the same length exhibits
the other failure mode: its `4294967295 × 4294967295` prefixes make
`8 + rows·cols·elSize` wrap negative in Go's `int64`, the guard passes,
and the parse faults (`crash`) instead of returning an error. -/
theorem publicKey_unmarshal_oversized_prefix_rejected :
    ([0, 1, 0, 0, 0, 1, 0, 0] ++ List.replicate 19 0).length =
      publicKeySizeCalc 1 1 1 2 ∧
    PublicKey.unmarshalBinary ⟨"X", 1, 1, 1, 0, 2, 0, 27, 0, 0⟩
      ([0, 1, 0, 0, 0, 1, 0, 0] ++ List.replicate 19 0) =
        .error .deserialization ∧
    PublicKey.unmarshalBinary ⟨"X", 1, 1, 1, 0, 2, 0, 27, 0, 0⟩
      (List.replicate 27 255) = .error .crash := by
  refine ⟨by decide, by rfl, by rfl⟩

theorem Matrix.eta (m : Matrix) : (⟨m.rows, m.cols, m.values, m.modulus⟩ : Matrix) = m :=
  rfl

/-- Serialize-then-parse for the public key, with arbitrary trailing
bytes: `UnmarshalBinary` reads only the declared structure and ignores the
rest. -/
theorem publicKey_bytes_parse_append (P : Params) (a u0 u1 : Matrix) (junk : Bytes)
    (hPsize : P.publicKeySize = publicKeySizeCalc P.lambda P.n P.m P.q)
    (hamod : a.modulus = P.q) (har : a.rows = P.n) (hac : a.cols = P.m)
    (haWr : a.values.length = a.rows) (haWc : ∀ row ∈ a.values, row.length = a.cols)
    (haval : ∀ row ∈ a.values, ∀ x ∈ row, x < a.modulus)
    (h0mod : u0.modulus = P.q) (h0r : u0.rows = P.n) (h0c : u0.cols = P.lambda)
    (h0Wr : u0.values.length = u0.rows) (h0Wc : ∀ row ∈ u0.values, row.length = u0.cols)
    (h0val : ∀ row ∈ u0.values, ∀ x ∈ row, x < u0.modulus)
    (h1mod : u1.modulus = P.q) (h1r : u1.rows = P.n) (h1c : u1.cols = P.lambda)
    (h1Wr : u1.values.length = u1.rows) (h1Wc : ∀ row ∈ u1.values, row.length = u1.cols)
    (h1val : ∀ row ∈ u1.values, ∀ x ∈ row, x < u1.modulus)
    (hn32 : P.n < 2 ^ 32) (hm32 : P.m < 2 ^ 32) (hl32 : P.lambda < 2 ^ 32) :
    ∃ pkB, PublicKey.bytes ⟨P, a, u0, u1⟩ = some pkB ∧
      pkB.length = publicKeySizeCalc P.lambda P.n P.m P.q ∧
      PublicKey.unmarshalBinary P (pkB ++ junk) = .ok ⟨P, a, u0, u1⟩ := by
  obtain ⟨aB, haB, haBlen⟩ := a.marshal_length_m haWr haWc haval
  obtain ⟨u0B, h0B, h0Blen⟩ := u0.marshal_length_m h0Wr h0Wc h0val
  obtain ⟨u1B, h1B, h1Blen⟩ := u1.marshal_length_m h1Wr h1Wc h1val
  rw [Matrix.encodedSize, har, hac, hamod] at haBlen
  rw [Matrix.encodedSize, h0r, h0c, h0mod] at h0Blen
  rw [Matrix.encodedSize, h1r, h1c, h1mod] at h1Blen
  refine ⟨aB ++ u0B ++ u1B, ?_, ?_, ?_⟩
  · unfold PublicKey.bytes
    rw [haB, h0B, h1B]
    rfl
  · rw [List.length_append, List.length_append, haBlen, h0Blen, h1Blen,
      publicKeySizeCalc]
    ring
  · unfold PublicKey.unmarshalBinary
    have hlen : (aB ++ u0B ++ u1B ++ junk).length =
        (8 + P.n * P.m * elementSize P.q) + (8 + P.n * P.lambda * elementSize P.q) +
          (8 + P.n * P.lambda * elementSize P.q) + junk.length := by
      simp only [List.length_append, haBlen, h0Blen, h1Blen]
    rw [if_neg (by rw [hlen, hPsize]; simp only [publicKeySizeCalc]; omega)]
    dsimp only
    rw [if_neg (by rw [hlen]; omega)]
    have hsplit : aB ++ u0B ++ u1B ++ junk = aB ++ (u0B ++ (u1B ++ junk)) := by simp
    have htakeA : (aB ++ u0B ++ u1B ++ junk).take (8 + P.n * P.m * elementSize P.q) =
        aB := by
      rw [hsplit, ← haBlen, List.take_left]
    have hdropA : (aB ++ u0B ++ u1B ++ junk).drop (8 + P.n * P.m * elementSize P.q) =
        u0B ++ (u1B ++ junk) := by
      rw [hsplit, ← haBlen, List.drop_left]
    have htakeU0 : ((aB ++ u0B ++ u1B ++ junk).drop
        (8 + P.n * P.m * elementSize P.q)).take
          (8 + P.n * P.lambda * elementSize P.q) = u0B := by
      rw [hdropA, ← h0Blen, List.take_left]
    have hdropU0 : (aB ++ u0B ++ u1B ++ junk).drop
        (8 + P.n * P.m * elementSize P.q + (8 + P.n * P.lambda * elementSize P.q)) =
        u1B ++ junk := by
      rw [hsplit, ← haBlen, ← h0Blen, List.drop_append, List.drop_left]
    have htakeU1 : ((aB ++ u0B ++ u1B ++ junk).drop
        (8 + P.n * P.m * elementSize P.q + (8 + P.n * P.lambda * elementSize P.q))).take
          (8 + P.n * P.lambda * elementSize P.q) = u1B := by
      rw [hdropU0, ← h1Blen, List.take_left]
    have haBexp := a.marshal_of_fits_m haval
    rw [haB] at haBexp
    have h0Bexp := u0.marshal_of_fits_m h0val
    rw [h0B] at h0Bexp
    have h1Bexp := u1.marshal_of_fits_m h1val
    rw [h1B] at h1Bexp
    have ra := Matrix.unmarshal_roundtrip_m (Matrix.new P.n P.m P.q) a []
      (by rw [hamod]; rfl) haWr haWc haval (by rw [har] at *; omega)
      (by rw [hac] at *; omega)
    rw [List.append_nil, ← Option.some_inj.mp haBexp] at ra
    have r0 := Matrix.unmarshal_roundtrip_m (Matrix.new P.n P.lambda P.q) u0 []
      (by rw [h0mod]; rfl) h0Wr h0Wc h0val (by rw [h0r] at *; omega)
      (by rw [h0c] at *; omega)
    rw [List.append_nil, ← Option.some_inj.mp h0Bexp] at r0
    have r1 := Matrix.unmarshal_roundtrip_m (Matrix.new P.n P.lambda P.q) u1 []
      (by rw [h1mod]; rfl) h1Wr h1Wc h1val (by rw [h1r] at *; omega)
      (by rw [h1c] at *; omega)
    rw [List.append_nil, ← Option.some_inj.mp h1Bexp] at r1
    rw [htakeA, ra]
    dsimp only
    rw [htakeU0, r0]
    dsimp only
    rw [htakeU1, r1]

/-- Serialize-then-parse for the private key, with arbitrary trailing
bytes. -/
theorem privateKey_bytes_parse_append (pk : PublicKey) (zb : Matrix) (b : Bool)
    (junk : Bytes)
    (hzmod : zb.modulus = pk.params.q) (hzr : zb.rows = pk.params.m)
    (hzc : zb.cols = pk.params.lambda)
    (hzWr : zb.values.length = zb.rows) (hzWc : ∀ row ∈ zb.values, row.length = zb.cols)
    (hzval : ∀ row ∈ zb.values, ∀ x ∈ row, x < zb.modulus)
    (hm32 : pk.params.m < 2 ^ 32) (hl32 : pk.params.lambda < 2 ^ 32) :
    ∃ skB, PrivateKey.bytes ⟨pk, zb, b⟩ = some skB ∧
      skB.length = (8 + pk.params.m * pk.params.lambda * elementSize pk.params.q) + 1 ∧
      PrivateKey.unmarshalBinary pk (skB ++ junk) = .ok ⟨pk, zb, b⟩ := by
  obtain ⟨zbB, hzbB, hzbBlen⟩ := zb.marshal_length_m hzWr hzWc hzval
  rw [Matrix.encodedSize, hzr, hzc, hzmod] at hzbBlen
  refine ⟨zbB ++ [if b then 1 else 0], ?_, ?_, ?_⟩
  · unfold PrivateKey.bytes
    rw [hzbB]
    rfl
  · simp [hzbBlen]
  · unfold PrivateKey.unmarshalBinary
    dsimp only
    have hlen : (zbB ++ [if b then 1 else 0] ++ junk).length =
        (8 + pk.params.m * pk.params.lambda * elementSize pk.params.q) + 1 +
          junk.length := by
      simp [hzbBlen]
      omega
    rw [if_neg (by rw [hlen]; omega)]
    have hsplit : zbB ++ [if b then 1 else 0] ++ junk =
        zbB ++ ([if b then 1 else 0] ++ junk) := by simp
    have htake : (zbB ++ [if b then 1 else 0] ++ junk).take
        (8 + pk.params.m * pk.params.lambda * elementSize pk.params.q) = zbB := by
      rw [hsplit, ← hzbBlen, List.take_left]
    have hflag : (zbB ++ [if b then 1 else 0] ++ junk).getD
        (8 + pk.params.m * pk.params.lambda * elementSize pk.params.q) 0 =
        (if b then 1 else 0) := by
      rw [hsplit, ← hzbBlen, List.getD_eq_getElem?_getD, List.getElem?_append_right
        (by omega)]
      simp
    have hzbBexp := zb.marshal_of_fits_m hzval
    rw [hzbB] at hzbBexp
    have rz := Matrix.unmarshal_roundtrip_m (Matrix.new pk.params.m pk.params.lambda
        pk.params.q) zb [] (by rw [hzmod]; rfl) hzWr hzWc hzval
      (by rw [hzr] at *; omega) (by rw [hzc] at *; omega)
    rw [List.append_nil, ← Option.some_inj.mp hzbBexp] at rz
    rw [htake, rz]
    dsimp only
    rw [hflag]
    have : ((if b then (1 : Nat) else 0) == 1) = b := by cases b <;> rfl
    rw [this]

theorem Matrix.equal_refl_m (m : Matrix) : m.equal m = true := by
  simp [Matrix.equal]

theorem PublicKey.equal_refl_pk (pk : PublicKey) : pk.equal pk = true := by
  simp [PublicKey.equal, Matrix.equal_refl_m]

theorem PrivateKey.equal_refl_sk (sk : PrivateKey) : sk.equal sk = true := by
  simp [PrivateKey.equal, Matrix.equal_refl_m, PublicKey.equal_refl_pk]

/-- C9: serialize-then-parse round-trip.  Parsing the serialized public
key with the same parameters returns a structurally equal public key, and
parsing the serialized private key against that public key returns a
structurally equal private key (equal `Zb`, equal branch bit, equal
back-referenced public key).  The hypotheses state that the keys have the
shapes produced by key generation and the recorded size matches the
parameter set, as `CalculateParameters` guarantees. -/
theorem key_serialization_roundtrip (P : Params) (a u0 u1 zb : Matrix) (b : Bool)
    (hPsize : P.publicKeySize = publicKeySizeCalc P.lambda P.n P.m P.q)
    (hamod : a.modulus = P.q) (har : a.rows = P.n) (hac : a.cols = P.m)
    (haWr : a.values.length = a.rows) (haWc : ∀ row ∈ a.values, row.length = a.cols)
    (haval : ∀ row ∈ a.values, ∀ x ∈ row, x < a.modulus)
    (h0mod : u0.modulus = P.q) (h0r : u0.rows = P.n) (h0c : u0.cols = P.lambda)
    (h0Wr : u0.values.length = u0.rows) (h0Wc : ∀ row ∈ u0.values, row.length = u0.cols)
    (h0val : ∀ row ∈ u0.values, ∀ x ∈ row, x < u0.modulus)
    (h1mod : u1.modulus = P.q) (h1r : u1.rows = P.n) (h1c : u1.cols = P.lambda)
    (h1Wr : u1.values.length = u1.rows) (h1Wc : ∀ row ∈ u1.values, row.length = u1.cols)
    (h1val : ∀ row ∈ u1.values, ∀ x ∈ row, x < u1.modulus)
    (hzmod : zb.modulus = P.q) (hzr : zb.rows = P.m) (hzc : zb.cols = P.lambda)
    (hzWr : zb.values.length = zb.rows) (hzWc : ∀ row ∈ zb.values, row.length = zb.cols)
    (hzval : ∀ row ∈ zb.values, ∀ x ∈ row, x < zb.modulus)
    (hn32 : P.n < 2 ^ 32) (hm32 : P.m < 2 ^ 32) (hl32 : P.lambda < 2 ^ 32) :
    ∃ pkB skB pk2 sk2,
      PublicKey.bytes ⟨P, a, u0, u1⟩ = some pkB ∧
      parsePublicKey pkB P = .ok pk2 ∧
      pk2.equal ⟨P, a, u0, u1⟩ = true ∧
      PrivateKey.bytes ⟨⟨P, a, u0, u1⟩, zb, b⟩ = some skB ∧
      parsePrivateKey skB pk2 = .ok sk2 ∧
      sk2.equal ⟨⟨P, a, u0, u1⟩, zb, b⟩ = true := by
  obtain ⟨pkB, hpkB, hpkBlen, hpkParse⟩ :=
    publicKey_bytes_parse_append P a u0 u1 [] hPsize hamod har hac haWr haWc haval
      h0mod h0r h0c h0Wr h0Wc h0val h1mod h1r h1c h1Wr h1Wc h1val hn32 hm32 hl32
  obtain ⟨skB, hskB, hskBlen, hskParse⟩ :=
    privateKey_bytes_parse_append ⟨P, a, u0, u1⟩ zb b [] hzmod hzr hzc hzWr hzWc
      hzval hm32 hl32
  rw [List.append_nil] at hpkParse hskParse
  exact ⟨pkB, skB, ⟨P, a, u0, u1⟩, ⟨⟨P, a, u0, u1⟩, zb, b⟩, hpkB, hpkParse,
    PublicKey.equal_refl_pk _, hskB, hskParse, PrivateKey.equal_refl_sk _⟩

/-- Witness for `key_serialization_roundtrip` at a small concrete key. -/
theorem key_serialization_roundtrip_witness :
    ∃ pkB skB pk2 sk2,
      PublicKey.bytes ⟨⟨"X", 1, 1, 1, 0, 2, 0, 27, 0, 0⟩, ⟨1, 1, [[1]], 2⟩,
        ⟨1, 1, [[0]], 2⟩, ⟨1, 1, [[1]], 2⟩⟩ = some pkB ∧
      parsePublicKey pkB ⟨"X", 1, 1, 1, 0, 2, 0, 27, 0, 0⟩ = .ok pk2 ∧
      pk2.equal ⟨⟨"X", 1, 1, 1, 0, 2, 0, 27, 0, 0⟩, ⟨1, 1, [[1]], 2⟩,
        ⟨1, 1, [[0]], 2⟩, ⟨1, 1, [[1]], 2⟩⟩ = true ∧
      PrivateKey.bytes ⟨⟨⟨"X", 1, 1, 1, 0, 2, 0, 27, 0, 0⟩, ⟨1, 1, [[1]], 2⟩,
        ⟨1, 1, [[0]], 2⟩, ⟨1, 1, [[1]], 2⟩⟩, ⟨1, 1, [[0]], 2⟩, true⟩ = some skB ∧
      parsePrivateKey skB pk2 = .ok sk2 ∧
      sk2.equal ⟨⟨⟨"X", 1, 1, 1, 0, 2, 0, 27, 0, 0⟩, ⟨1, 1, [[1]], 2⟩,
        ⟨1, 1, [[0]], 2⟩, ⟨1, 1, [[1]], 2⟩⟩, ⟨1, 1, [[0]], 2⟩, true⟩ = true :=
  key_serialization_roundtrip ⟨"X", 1, 1, 1, 0, 2, 0, 27, 0, 0⟩ ⟨1, 1, [[1]], 2⟩
    ⟨1, 1, [[0]], 2⟩ ⟨1, 1, [[1]], 2⟩ ⟨1, 1, [[0]], 2⟩ true
    (by decide) rfl rfl rfl rfl (by decide) (by decide)
    rfl rfl rfl rfl (by decide) (by decide)
    rfl rfl rfl rfl (by decide) (by decide)
    rfl rfl rfl rfl (by decide) (by decide)
    (by decide) (by decide) (by decide)

/-- C10 (amended): key deserialization tolerates trailing junk after the
declared structure — appending arbitrary bytes to a well-formed
serialization still parses, returning the original key — and any buffer
strictly shorter than the expected size is rejected with a
`Deserialization` error.  (Length ≥ expected alone is NOT sufficient for
success: an embedded dimension prefix that overruns the buffer is either
rejected with a `Deserialization` error or, when the size computation
overflows `int64`, makes the parse fault — see the counterexample.) -/
theorem unmarshal_lenient (P : Params) (a u0 u1 zb : Matrix) (b : Bool) (junk : Bytes)
    (hPsize : P.publicKeySize = publicKeySizeCalc P.lambda P.n P.m P.q)
    (hamod : a.modulus = P.q) (har : a.rows = P.n) (hac : a.cols = P.m)
    (haWr : a.values.length = a.rows) (haWc : ∀ row ∈ a.values, row.length = a.cols)
    (haval : ∀ row ∈ a.values, ∀ x ∈ row, x < a.modulus)
    (h0mod : u0.modulus = P.q) (h0r : u0.rows = P.n) (h0c : u0.cols = P.lambda)
    (h0Wr : u0.values.length = u0.rows) (h0Wc : ∀ row ∈ u0.values, row.length = u0.cols)
    (h0val : ∀ row ∈ u0.values, ∀ x ∈ row, x < u0.modulus)
    (h1mod : u1.modulus = P.q) (h1r : u1.rows = P.n) (h1c : u1.cols = P.lambda)
    (h1Wr : u1.values.length = u1.rows) (h1Wc : ∀ row ∈ u1.values, row.length = u1.cols)
    (h1val : ∀ row ∈ u1.values, ∀ x ∈ row, x < u1.modulus)
    (hzmod : zb.modulus = P.q) (hzr : zb.rows = P.m) (hzc : zb.cols = P.lambda)
    (hzWr : zb.values.length = zb.rows) (hzWc : ∀ row ∈ zb.values, row.length = zb.cols)
    (hzval : ∀ row ∈ zb.values, ∀ x ∈ row, x < zb.modulus)
    (hn32 : P.n < 2 ^ 32) (hm32 : P.m < 2 ^ 32) (hl32 : P.lambda < 2 ^ 32) :
    (∃ pkB, PublicKey.bytes ⟨P, a, u0, u1⟩ = some pkB ∧
      PublicKey.unmarshalBinary P (pkB ++ junk) = .ok ⟨P, a, u0, u1⟩) ∧
    (∀ data : Bytes, data.length < P.publicKeySize →
      PublicKey.unmarshalBinary P data = .error .deserialization) ∧
    (∃ skB, PrivateKey.bytes ⟨⟨P, a, u0, u1⟩, zb, b⟩ = some skB ∧
      PrivateKey.unmarshalBinary ⟨P, a, u0, u1⟩ (skB ++ junk) =
        .ok ⟨⟨P, a, u0, u1⟩, zb, b⟩) ∧
    (∀ data : Bytes,
      data.length < (8 + P.m * P.lambda * elementSize P.q) + 1 →
      PrivateKey.unmarshalBinary ⟨P, a, u0, u1⟩ data = .error .deserialization) := by
  obtain ⟨pkB, hpkB, hpkBlen, hpkParse⟩ :=
    publicKey_bytes_parse_append P a u0 u1 junk hPsize hamod har hac haWr haWc haval
      h0mod h0r h0c h0Wr h0Wc h0val h1mod h1r h1c h1Wr h1Wc h1val hn32 hm32 hl32
  obtain ⟨skB, hskB, hskBlen, hskParse⟩ :=
    privateKey_bytes_parse_append ⟨P, a, u0, u1⟩ zb b junk hzmod hzr hzc hzWr hzWc
      hzval hm32 hl32
  refine ⟨⟨pkB, hpkB, hpkParse⟩, ?_, ⟨skB, hskB, hskParse⟩, ?_⟩
  · intro data hshort
    unfold PublicKey.unmarshalBinary
    rw [if_pos hshort]
  · intro data hshort
    unfold PrivateKey.unmarshalBinary
    dsimp only
    rw [if_pos hshort]

/-- Witness for `unmarshal_lenient` at a small concrete key and one junk
byte. -/
theorem unmarshal_lenient_witness :
    (∃ pkB, PublicKey.bytes ⟨⟨"X", 1, 1, 1, 0, 2, 0, 27, 0, 0⟩, ⟨1, 1, [[1]], 2⟩,
        ⟨1, 1, [[0]], 2⟩, ⟨1, 1, [[1]], 2⟩⟩ = some pkB ∧
      PublicKey.unmarshalBinary ⟨"X", 1, 1, 1, 0, 2, 0, 27, 0, 0⟩ (pkB ++ [7]) =
        .ok ⟨⟨"X", 1, 1, 1, 0, 2, 0, 27, 0, 0⟩, ⟨1, 1, [[1]], 2⟩, ⟨1, 1, [[0]], 2⟩,
          ⟨1, 1, [[1]], 2⟩⟩) ∧
    (∀ data : Bytes, data.length < (⟨"X", 1, 1, 1, 0, 2, 0, 27, 0, 0⟩ : Params).publicKeySize →
      PublicKey.unmarshalBinary ⟨"X", 1, 1, 1, 0, 2, 0, 27, 0, 0⟩ data =
        .error .deserialization) ∧
    (∃ skB, PrivateKey.bytes ⟨⟨⟨"X", 1, 1, 1, 0, 2, 0, 27, 0, 0⟩, ⟨1, 1, [[1]], 2⟩,
        ⟨1, 1, [[0]], 2⟩, ⟨1, 1, [[1]], 2⟩⟩, ⟨1, 1, [[0]], 2⟩, false⟩ = some skB ∧
      PrivateKey.unmarshalBinary ⟨⟨"X", 1, 1, 1, 0, 2, 0, 27, 0, 0⟩, ⟨1, 1, [[1]], 2⟩,
          ⟨1, 1, [[0]], 2⟩, ⟨1, 1, [[1]], 2⟩⟩ (skB ++ [7]) =
        .ok ⟨⟨⟨"X", 1, 1, 1, 0, 2, 0, 27, 0, 0⟩, ⟨1, 1, [[1]], 2⟩, ⟨1, 1, [[0]], 2⟩,
          ⟨1, 1, [[1]], 2⟩⟩, ⟨1, 1, [[0]], 2⟩, false⟩) ∧
    (∀ data : Bytes, data.length < (8 + 1 * 1 * elementSize 2) + 1 →
      PrivateKey.unmarshalBinary ⟨⟨"X", 1, 1, 1, 0, 2, 0, 27, 0, 0⟩, ⟨1, 1, [[1]], 2⟩,
          ⟨1, 1, [[0]], 2⟩, ⟨1, 1, [[1]], 2⟩⟩ data = .error .deserialization) :=
  unmarshal_lenient ⟨"X", 1, 1, 1, 0, 2, 0, 27, 0, 0⟩ ⟨1, 1, [[1]], 2⟩
    ⟨1, 1, [[0]], 2⟩ ⟨1, 1, [[1]], 2⟩ ⟨1, 1, [[0]], 2⟩ false [7]
    (by decide) rfl rfl rfl rfl (by decide) (by decide)
    rfl rfl rfl rfl (by decide) (by decide)
    rfl rfl rfl rfl (by decide) (by decide)
    rfl rfl rfl rfl (by decide) (by decide)
    (by decide) (by decide) (by decide)

theorem Matrix.transpose_rows (m : Matrix) : m.transpose.rows = m.cols := rfl

theorem Matrix.transpose_cols (m : Matrix) : m.transpose.cols = m.rows := rfl

theorem Matrix.transpose_modulus (m : Matrix) : m.transpose.modulus = m.modulus := rfl

theorem Vector.length_mk (l : List Nat) (q : Nat) : Vector.length ⟨l, q⟩ = l.length :=
  rfl

theorem foldl_mod_lt (g : Nat → Nat) (M : Nat) (hM : 0 < M) :
    ∀ (l : List Nat) (acc : Nat), acc < M →
      List.foldl (fun sum j => (sum + g j) % M) acc l < M := by
  intro l
  induction l with
  | nil => intro acc h; exact h
  | cons a t ih => intro acc h; exact ih _ (Nat.mod_lt _ hM)

theorem Matrix.mulVecValues_length (m : Matrix) (v : Vector) :
    (m.mulVecValues v).length = m.rows := by
  simp [Matrix.mulVecValues]

theorem Matrix.mulVecValues_lt (m : Matrix) (v : Vector) (h : 0 < m.modulus) :
    ∀ x ∈ m.mulVecValues v, x < m.modulus := by
  intro x hx
  unfold Matrix.mulVecValues at hx
  obtain ⟨i, _, rfl⟩ := List.mem_map.mp hx
  exact foldl_mod_lt _ _ h _ 0 h

theorem Matrix.multiplyVector_eq (m : Matrix) (v : Vector) (h : m.cols = v.length) :
    m.multiplyVector v = some ⟨m.mulVecValues v, m.modulus⟩ := by
  unfold Matrix.multiplyVector
  rw [if_neg (by omega)]

theorem Vector.addValues_length (v w : Vector) :
    (v.addValues w).length = min v.values.length w.values.length := by
  simp [Vector.addValues]

theorem zipWith_mod_lt (f : Nat → Nat → Nat) (M : Nat) (h : 0 < M) :
    ∀ (l1 l2 : List Nat), ∀ x ∈ List.zipWith (fun a b => f a b % M) l1 l2, x < M := by
  intro l1
  induction l1 with
  | nil => intro l2 x hx; simp at hx
  | cons a t ih =>
    intro l2 x hx
    cases l2 with
    | nil => simp at hx
    | cons b u =>
      simp only [List.zipWith_cons_cons, List.mem_cons] at hx
      rcases hx with rfl | hx
      · exact Nat.mod_lt _ h
      · exact ih u x hx

theorem Vector.addValues_lt (v w : Vector) (h : 0 < v.modulus) :
    ∀ x ∈ v.addValues w, x < v.modulus :=
  zipWith_mod_lt (fun a b => a + b) v.modulus h v.values w.values

theorem Vector.add_eq (v w : Vector) (h : v.length = w.length) :
    v.add w = some ⟨v.addValues w, v.modulus⟩ := by
  unfold Vector.add
  rw [if_neg (by omega)]

theorem Vector.subValues_length (v w : Vector) :
    (v.subValues w).length = min v.values.length w.values.length := by
  simp [Vector.subValues]

theorem Vector.subtract_eq (v w : Vector) (h : v.length = w.length) :
    v.subtract w = some ⟨v.subValues w, v.modulus⟩ := by
  unfold Vector.subtract
  rw [if_neg (by omega)]

theorem xorBytes_length (a b : Bytes) : (xorBytes a b).length = min a.length b.length := by
  simp [xorBytes]

theorem xorBytes_cancel (k r : Bytes) (h : k.length = r.length) :
    xorBytes (xorBytes k r) k = r := by
  unfold xorBytes
  induction k generalizing r with
  | nil => cases r with
    | nil => rfl
    | cons b t => simp at h
  | cons a t ih =>
    cases r with
    | nil => simp at h
    | cons b u =>
      simp only [List.zipWith_cons_cons, List.cons.injEq]
      refine ⟨?_, ih u (by simpa using h)⟩
      rw [Nat.xor_comm a b, Nat.xor_assoc, Nat.xor_self, Nat.xor_zero]

theorem Vector.equal_refl_v (v : Vector) : v.equal v = true := by
  simp [Vector.equal]


theorem Vector.marshal_unmarshal (u v : Vector) (hmod : u.modulus = v.modulus)
    (hval : ∀ a ∈ v.values, a < v.modulus) (hlen : v.length < 2 ^ 32) :
    ∃ bs, v.marshalBinary = some bs ∧ bs.length = v.encodedSize ∧
      u.unmarshalBinary bs = some ⟨v.values, v.modulus⟩ := by
  refine ⟨_, v.marshal_of_fits_v hval, ?_,
    Vector.unmarshal_roundtrip_v u v hmod hval hlen⟩
  rw [List.length_append, putUint32_length,
    flatten_map_length _ _ (fun x => natToBytesBE_length _ x), Vector.encodedSize,
    Vector.length]

theorem Vector.new_encodedSize (k q : Nat) :
    (Vector.new k q).encodedSize = 4 + k * elementSize q := by
  simp [Vector.new, Vector.encodedSize, Vector.length]

theorem Vector.scalarMultiply_zero_vec (k c : Nat) :
    (⟨List.replicate k 0, 1⟩ : Vector).scalarMultiply c = ⟨List.replicate k 0, 1⟩ := by
  simp [Vector.scalarMultiply]

/-- `parseCiphertext` on a ciphertext assembled from well-sized segments
recovers exactly those segments. -/
theorem parseCiphertext_of_segments (A B xB h0B h1B : Bytes) (m lambda q : Nat)
    (x h0 h1 : Vector)
    (hA : A.length = lambda / 8) (hB : B.length = lambda / 8)
    (hxB : xB.length = (Vector.new m q).encodedSize)
    (hh0B : h0B.length = (Vector.new lambda q).encodedSize)
    (hh1B : h1B.length = (Vector.new lambda q).encodedSize)
    (hxu : (Vector.new m q).unmarshalBinary xB = some x)
    (h0u : (Vector.new lambda q).unmarshalBinary h0B = some h0)
    (h1u : (Vector.new lambda q).unmarshalBinary h1B = some h1) :
    parseCiphertext (A ++ B ++ xB ++ h0B ++ h1B) m lambda q =
      .ok (A, B, x, h0, h1) := by
  have hassoc : A ++ B ++ xB ++ h0B ++ h1B = A ++ (B ++ (xB ++ (h0B ++ h1B))) := by
    simp [List.append_assoc]
  have hSlen : (A ++ B ++ xB ++ h0B ++ h1B).length =
      lambda / 8 + (lambda / 8 + (xB.length + (h0B.length + h1B.length))) := by
    simp [List.length_append, hA, hB]
  have t1 : (A ++ B ++ xB ++ h0B ++ h1B).take (lambda / 8) = A := by
    rw [hassoc, List.take_left' hA]
  have d1 : (A ++ B ++ xB ++ h0B ++ h1B).drop (lambda / 8) =
      B ++ (xB ++ (h0B ++ h1B)) := by
    rw [hassoc, List.drop_left' hA]
  have t2 : ((A ++ B ++ xB ++ h0B ++ h1B).drop (lambda / 8)).take (lambda / 8) = B := by
    rw [d1, List.take_left' hB]
  have d2 : (A ++ B ++ xB ++ h0B ++ h1B).drop (2 * (lambda / 8)) =
      xB ++ (h0B ++ h1B) := by
    rw [show 2 * (lambda / 8) = lambda / 8 + lambda / 8 by omega, ← List.drop_drop,
      d1, List.drop_left' hB]
  have t3 : ((A ++ B ++ xB ++ h0B ++ h1B).drop (2 * (lambda / 8))).take
      ((Vector.new m q).encodedSize) = xB := by
    rw [d2, List.take_left' hxB]
  have d3 : (A ++ B ++ xB ++ h0B ++ h1B).drop
      (2 * (lambda / 8) + (Vector.new m q).encodedSize) = h0B ++ h1B := by
    rw [← List.drop_drop, d2, List.drop_left' hxB]
  have t4 : ((A ++ B ++ xB ++ h0B ++ h1B).drop
      (2 * (lambda / 8) + (Vector.new m q).encodedSize)).take
      ((Vector.new lambda q).encodedSize) = h0B := by
    rw [d3, List.take_left' hh0B]
  have d4 : (A ++ B ++ xB ++ h0B ++ h1B).drop
      (2 * (lambda / 8) + (Vector.new m q).encodedSize +
        (Vector.new lambda q).encodedSize) = h1B := by
    rw [← List.drop_drop, d3, List.drop_left' hh0B]
  have t5 : ((A ++ B ++ xB ++ h0B ++ h1B).drop
      (2 * (lambda / 8) + (Vector.new m q).encodedSize +
        (Vector.new lambda q).encodedSize)).take
      ((Vector.new lambda q).encodedSize) = h1B := by
    rw [d4, List.take_of_length_le (le_of_eq hh1B)]
  unfold parseCiphertext
  rw [if_neg (by rw [hSlen]; omega)]
  dsimp only
  rw [if_neg (by rw [hSlen]; omega), t3, hxu]
  dsimp only
  rw [if_neg (by rw [hSlen]; omega), t4, h0u]
  dsimp only
  rw [if_neg (by rw [hSlen]; omega), t5, h1u, t1, t2]



/-- `Decapsulate` inverts `Encapsulate`: under the primitive length
contracts, byte-aligned sizes, and a key whose matrices have the declared
dimensions and modulus `q`, any successful encapsulation is decapsulated
to the same shared secret, for either value of the branch bit. -/
theorem decap_inverts_encap (pr : Prims) (P : Params) (pk : PublicKey)
    (zb : Matrix) (b : Bool) (r ct ss : Bytes)
    (hH : ∀ x, (pr.h256 x).length = 32)
    (hX : ∀ x k, (pr.xof x k).length = k)
    (hS : ∀ len rho, (pr.sampleD len rho).length = len)
    (hq : 0 < P.q)
    (hl8 : P.lambda % 8 = 0) (hl256 : P.lambda ≤ 256)
    (hs8 : P.n * (P.logEta + 1) % 8 = 0)
    (hm32 : P.m < 2 ^ 32) (hlam32 : P.lambda < 2 ^ 32)
    (hr : r.length = P.lambda / 8)
    (hamod : pk.a.modulus = P.q) (hu0mod : pk.u0.modulus = P.q)
    (hu1mod : pk.u1.modulus = P.q)
    (har : pk.a.rows = P.n) (hac : pk.a.cols = P.m)
    (hu0r : pk.u0.rows = P.n) (hu0c : pk.u0.cols = P.lambda)
    (hu1r : pk.u1.rows = P.n) (hu1c : pk.u1.cols = P.lambda)
    (hzr : zb.rows = P.m) (hzc : zb.cols = P.lambda)
    (henc : encapsulate pr P pk r = some (ct, ss)) :
    decapsulate pr P ⟨pk, zb, b⟩ ct = .ok ss := by
  obtain ⟨hexpEq, hsvLen, hrhoLen⟩ := expandSeed_eq pr r P.n P.lambda P.logEta hX hl8 hs8
  obtain ⟨sv, hsv⟩ : ∃ l, expandSVals pr r P.n P.lambda P.logEta = l := ⟨_, rfl⟩
  obtain ⟨rho, hrho⟩ : ∃ l, expandRho pr r P.n P.lambda P.logEta = l := ⟨_, rfl⟩
  rw [hsv] at hexpEq hsvLen
  rw [hrho] at hexpEq hrhoLen
  unfold encapsulate at henc
  rw [hexpEq] at henc
  dsimp only at henc
  rw [Matrix.multiplyVector_eq pk.a.transpose ⟨sv, P.q⟩
    (by rw [Matrix.transpose_cols, har, Vector.length_mk, hsvLen])] at henc
  rw [Matrix.transpose_modulus pk.a, hamod] at henc
  obtain ⟨atsv, hatsv⟩ : ∃ l, pk.a.transpose.mulVecValues ⟨sv, P.q⟩ = l := ⟨_, rfl⟩
  rw [hatsv] at henc
  have hatsvLen : atsv.length = P.m := by
    rw [← hatsv, Matrix.mulVecValues_length, Matrix.transpose_rows, hac]
  dsimp only at henc
  rw [Vector.add_eq ⟨atsv, P.q⟩ (generateSampleDVector pr P.m rho P.q)
    (by simp [Vector.length, generateSampleDVector, hS, hatsvLen])] at henc
  obtain ⟨xv, hxv⟩ : ∃ l,
      Vector.addValues ⟨atsv, P.q⟩ (generateSampleDVector pr P.m rho P.q) = l := ⟨_, rfl⟩
  rw [hxv] at henc
  have hxvLen : xv.length = P.m := by
    rw [← hxv, Vector.addValues_length]
    simp [generateSampleDVector, hatsvLen, hS]
  have hxvLt : ∀ t ∈ xv, t < P.q := by rw [← hxv]; exact Vector.addValues_lt _ _ hq
  dsimp only at henc
  rw [Matrix.multiplyVector_eq pk.u0.transpose ⟨sv, P.q⟩
    (by rw [Matrix.transpose_cols, hu0r, Vector.length_mk, hsvLen])] at henc
  rw [Matrix.transpose_modulus pk.u0, hu0mod] at henc
  obtain ⟨u0tsv, hu0tsv⟩ : ∃ l, pk.u0.transpose.mulVecValues ⟨sv, P.q⟩ = l := ⟨_, rfl⟩
  rw [hu0tsv] at henc
  have hu0tsvLen : u0tsv.length = P.lambda := by
    rw [← hu0tsv, Matrix.mulVecValues_length, Matrix.transpose_rows, hu0c]
  dsimp only at henc
  unfold computeHatH at henc
  dsimp only at henc
  rw [Vector.scalarMultiply_zero_vec] at henc
  rw [Vector.add_eq ⟨u0tsv, P.q⟩ ⟨List.replicate P.lambda 0, 1⟩
    (by simp [Vector.length, hu0tsvLen])] at henc
  obtain ⟨h0v, hh0v⟩ : ∃ l,
      Vector.addValues ⟨u0tsv, P.q⟩ ⟨List.replicate P.lambda 0, 1⟩ = l := ⟨_, rfl⟩
  rw [hh0v] at henc
  have hh0vLen : h0v.length = P.lambda := by
    rw [← hh0v, Vector.addValues_length]
    simp [hu0tsvLen]
  have hh0vLt : ∀ t ∈ h0v, t < P.q := by rw [← hh0v]; exact Vector.addValues_lt _ _ hq
  dsimp only at henc
  rw [Matrix.multiplyVector_eq pk.u1.transpose ⟨sv, P.q⟩
    (by rw [Matrix.transpose_cols, hu1r, Vector.length_mk, hsvLen])] at henc
  rw [Matrix.transpose_modulus pk.u1, hu1mod] at henc
  obtain ⟨u1tsv, hu1tsv⟩ : ∃ l, pk.u1.transpose.mulVecValues ⟨sv, P.q⟩ = l := ⟨_, rfl⟩
  rw [hu1tsv] at henc
  have hu1tsvLen : u1tsv.length = P.lambda := by
    rw [← hu1tsv, Matrix.mulVecValues_length, Matrix.transpose_rows, hu1c]
  dsimp only at henc
  rw [Vector.add_eq ⟨u1tsv, P.q⟩ ⟨List.replicate P.lambda 0, 1⟩
    (by simp [Vector.length, hu1tsvLen])] at henc
  obtain ⟨h1v, hh1v⟩ : ∃ l,
      Vector.addValues ⟨u1tsv, P.q⟩ ⟨List.replicate P.lambda 0, 1⟩ = l := ⟨_, rfl⟩
  rw [hh1v] at henc
  have hh1vLen : h1v.length = P.lambda := by
    rw [← hh1v, Vector.addValues_length]
    simp [hu1tsvLen]
  have hh1vLt : ∀ t ∈ h1v, t < P.q := by rw [← hh1v]; exact Vector.addValues_lt _ _ hq
  dsimp only at henc
  rw [sliceTo_eq (hash3 pr ⟨xv, P.q⟩ ⟨h0v, P.q⟩ ⟨List.replicate P.lambda 0, 1⟩)
    (P.lambda / 8) (by rw [hash3_length pr hH]; omega)] at henc
  obtain ⟨hatK0, hK0⟩ : ∃ l,
      (hash3 pr ⟨xv, P.q⟩ ⟨h0v, P.q⟩ ⟨List.replicate P.lambda 0, 1⟩).take
        (P.lambda / 8) = l := ⟨_, rfl⟩
  rw [hK0] at henc
  have hK0len : hatK0.length = P.lambda / 8 := by
    rw [← hK0, List.length_take, hash3_length pr hH]; omega
  dsimp only at henc
  rw [sliceTo_eq (hash3 pr ⟨xv, P.q⟩ ⟨h1v, P.q⟩ ⟨List.replicate P.lambda 0, 1⟩)
    (P.lambda / 8) (by rw [hash3_length pr hH]; omega)] at henc
  obtain ⟨hatK1, hK1⟩ : ∃ l,
      (hash3 pr ⟨xv, P.q⟩ ⟨h1v, P.q⟩ ⟨List.replicate P.lambda 0, 1⟩).take
        (P.lambda / 8) = l := ⟨_, rfl⟩
  rw [hK1] at henc
  have hK1len : hatK1.length = P.lambda / 8 := by
    rw [← hK1, List.length_take, hash3_length pr hH]; omega
  dsimp only at henc
  unfold constructCiphertext at henc
  obtain ⟨xB, hxBm, hxBlen, hxBu⟩ :=
    Vector.marshal_unmarshal (Vector.new P.m P.q) ⟨xv, P.q⟩ rfl hxvLt
      (by rw [Vector.length_mk, hxvLen]; exact hm32)
  obtain ⟨h0B, hh0Bm, hh0Blen, hh0Bu⟩ :=
    Vector.marshal_unmarshal (Vector.new P.lambda P.q) ⟨h0v, P.q⟩ rfl hh0vLt
      (by rw [Vector.length_mk, hh0vLen]; exact hlam32)
  obtain ⟨h1B, hh1Bm, hh1Blen, hh1Bu⟩ :=
    Vector.marshal_unmarshal (Vector.new P.lambda P.q) ⟨h1v, P.q⟩ rfl hh1vLt
      (by rw [Vector.length_mk, hh1vLen]; exact hlam32)
  rw [hxBm, hh0Bm, hh1Bm] at henc
  dsimp only at henc
  injection henc with hpair
  injection hpair with hct hss
  subst hct
  subst hss
  have hc0len : (xorBytes hatK0 r).length = P.lambda / 8 := by
    rw [xorBytes_length, hK0len, hr, Nat.min_self]
  have hc1len : (xorBytes hatK1 r).length = P.lambda / 8 := by
    rw [xorBytes_length, hK1len, hr, Nat.min_self]
  have hxBsz : xB.length = (Vector.new P.m P.q).encodedSize := by
    rw [hxBlen, Vector.new_encodedSize, Vector.encodedSize, Vector.length_mk, hxvLen]
  have hh0Bsz : h0B.length = (Vector.new P.lambda P.q).encodedSize := by
    rw [hh0Blen, Vector.new_encodedSize, Vector.encodedSize, Vector.length_mk, hh0vLen]
  have hh1Bsz : h1B.length = (Vector.new P.lambda P.q).encodedSize := by
    rw [hh1Blen, Vector.new_encodedSize, Vector.encodedSize, Vector.length_mk, hh1vLen]
  have hparse := parseCiphertext_of_segments (xorBytes hatK0 r) (xorBytes hatK1 r)
    xB h0B h1B P.m P.lambda P.q ⟨xv, P.q⟩ ⟨h0v, P.q⟩ ⟨h1v, P.q⟩
    hc0len hc1len hxBsz hh0Bsz hh1Bsz hxBu hh0Bu hh1Bu
  unfold decapsulate
  rw [hparse]
  dsimp only
  cases b
  · rw [Matrix.multiplyVector_eq zb.transpose ⟨xv, P.q⟩
      (by rw [Matrix.transpose_cols, hzr, Vector.length_mk, hxvLen])]
    dsimp only
    obtain ⟨ztv, hztv⟩ : ∃ l, zb.transpose.mulVecValues ⟨xv, P.q⟩ = l := ⟨_, rfl⟩
    rw [hztv]
    have hztvLen : ztv.length = P.lambda := by
      rw [← hztv, Matrix.mulVecValues_length, Matrix.transpose_rows, hzc]
    simp only [if_neg (show ¬ (false = true) by decide)]
    rw [Vector.subtract_eq ⟨h0v, P.q⟩ ⟨ztv, zb.transpose.modulus⟩
      (by rw [Vector.length_mk, Vector.length_mk, hh0vLen, hztvLen])]
    dsimp only
    obtain ⟨dv, hdv⟩ : ∃ l,
        Vector.subValues ⟨h0v, P.q⟩ ⟨ztv, zb.transpose.modulus⟩ = l := ⟨_, rfl⟩
    rw [hdv]
    have hdvLen : dv.length = P.lambda := by
      rw [← hdv, Vector.subValues_length]
      simp [hh0vLen, hztvLen]
    rw [roundVector_values ⟨dv, P.q⟩ P.q]
    dsimp only
    rw [hdvLen]
    rw [sliceTo_eq (hash3 pr ⟨xv, P.q⟩ ⟨h0v, P.q⟩ ⟨List.replicate P.lambda 0, 1⟩)
      (P.lambda / 8) (by rw [hash3_length pr hH]; omega)]
    dsimp only
    rw [hK0]
    rw [xorBytes_cancel hatK0 r (by rw [hK0len, hr])]
    rw [hexpEq]
    dsimp only
    rw [Matrix.multiplyVector_eq pk.u1.transpose ⟨sv, P.q⟩
      (by rw [Matrix.transpose_cols, hu1r, Vector.length_mk, hsvLen])]
    rw [Matrix.transpose_modulus pk.u1, hu1mod]
    rw [hu1tsv]
    dsimp only
    unfold computeHatH
    dsimp only
    rw [Vector.scalarMultiply_zero_vec]
    rw [Vector.add_eq ⟨u1tsv, P.q⟩ ⟨List.replicate P.lambda 0, 1⟩
      (by simp [Vector.length, hu1tsvLen])]
    dsimp only
    rw [hh1v]
    rw [sliceTo_eq (hash3 pr ⟨xv, P.q⟩ ⟨h1v, P.q⟩ ⟨List.replicate P.lambda 0, 1⟩)
      (P.lambda / 8) (by rw [hash3_length pr hH]; omega)]
    dsimp only
    rw [hK1]
    rw [Matrix.multiplyVector_eq pk.a.transpose ⟨sv, P.q⟩
      (by rw [Matrix.transpose_cols, har, Vector.length_mk, hsvLen])]
    rw [Matrix.transpose_modulus pk.a, hamod]
    rw [hatsv]
    dsimp only
    rw [Vector.add_eq ⟨atsv, P.q⟩ (generateSampleDVector pr P.m rho P.q)
      (by simp [Vector.length, generateSampleDVector, hS, hatsvLen])]
    dsimp only
    rw [hxv]
    unfold decapChecks
    simp [Vector.equal_refl_v]
  · rw [Matrix.multiplyVector_eq zb.transpose ⟨xv, P.q⟩
      (by rw [Matrix.transpose_cols, hzr, Vector.length_mk, hxvLen])]
    dsimp only
    obtain ⟨ztv, hztv⟩ : ∃ l, zb.transpose.mulVecValues ⟨xv, P.q⟩ = l := ⟨_, rfl⟩
    rw [hztv]
    have hztvLen : ztv.length = P.lambda := by
      rw [← hztv, Matrix.mulVecValues_length, Matrix.transpose_rows, hzc]
    simp only [eq_self_iff_true, if_true]
    rw [Vector.subtract_eq ⟨h1v, P.q⟩ ⟨ztv, zb.transpose.modulus⟩
      (by rw [Vector.length_mk, Vector.length_mk, hh1vLen, hztvLen])]
    dsimp only
    obtain ⟨dv, hdv⟩ : ∃ l,
        Vector.subValues ⟨h1v, P.q⟩ ⟨ztv, zb.transpose.modulus⟩ = l := ⟨_, rfl⟩
    rw [hdv]
    have hdvLen : dv.length = P.lambda := by
      rw [← hdv, Vector.subValues_length]
      simp [hh1vLen, hztvLen]
    rw [roundVector_values ⟨dv, P.q⟩ P.q]
    dsimp only
    rw [hdvLen]
    rw [sliceTo_eq (hash3 pr ⟨xv, P.q⟩ ⟨h1v, P.q⟩ ⟨List.replicate P.lambda 0, 1⟩)
      (P.lambda / 8) (by rw [hash3_length pr hH]; omega)]
    dsimp only
    rw [hK1]
    rw [xorBytes_cancel hatK1 r (by rw [hK1len, hr])]
    rw [hexpEq]
    dsimp only
    rw [Matrix.multiplyVector_eq pk.u0.transpose ⟨sv, P.q⟩
      (by rw [Matrix.transpose_cols, hu0r, Vector.length_mk, hsvLen])]
    rw [Matrix.transpose_modulus pk.u0, hu0mod]
    rw [hu0tsv]
    dsimp only
    unfold computeHatH
    dsimp only
    rw [Vector.scalarMultiply_zero_vec]
    rw [Vector.add_eq ⟨u0tsv, P.q⟩ ⟨List.replicate P.lambda 0, 1⟩
      (by simp [Vector.length, hu0tsvLen])]
    dsimp only
    rw [hh0v]
    rw [sliceTo_eq (hash3 pr ⟨xv, P.q⟩ ⟨h0v, P.q⟩ ⟨List.replicate P.lambda 0, 1⟩)
      (P.lambda / 8) (by rw [hash3_length pr hH]; omega)]
    dsimp only
    rw [hK0]
    rw [Matrix.multiplyVector_eq pk.a.transpose ⟨sv, P.q⟩
      (by rw [Matrix.transpose_cols, har, Vector.length_mk, hsvLen])]
    rw [Matrix.transpose_modulus pk.a, hamod]
    rw [hatsv]
    dsimp only
    rw [Vector.add_eq ⟨atsv, P.q⟩ (generateSampleDVector pr P.m rho P.q)
      (by simp [Vector.length, generateSampleDVector, hS, hatsvLen])]
    dsimp only
    rw [hxv]
    unfold decapChecks
    simp [Vector.equal_refl_v]



/-- C1: KEM consistency.  For any parameters with byte-aligned sizes and
positive modulus, any sampled key-generation randomness and any fresh
seed `r` of `lambda/8` bytes: if `GenerateKeyPair` returns `(pk, sk)` and
`Encapsulate(pk)` (run with seed `r`) returns `(ct, ss)`, then
`Decapsulate(sk, ct)` succeeds and returns exactly `ss`.  The primitive
hypotheses are the output-length contracts of SHA3-256, the SHA3-512 XOF
and the Gaussian sampler. -/
theorem kem_consistency (pr : Prims) (P : Params)
    (polyA zbT w : List (List Nat)) (bByte : Nat) (r ct ss : Bytes)
    (hH : ∀ x, (pr.h256 x).length = 32)
    (hX : ∀ x k, (pr.xof x k).length = k)
    (hS : ∀ len rho, (pr.sampleD len rho).length = len)
    (hq : 0 < P.q) (hl8 : P.lambda % 8 = 0) (hl256 : P.lambda ≤ 256)
    (hs8 : P.n * (P.logEta + 1) % 8 = 0)
    (hm32 : P.m < 2 ^ 32) (hlam32 : P.lambda < 2 ^ 32)
    (hr : r.length = P.lambda / 8)
    (henc : encapsulate pr P (generateKeyPair P polyA zbT w bByte).1 r =
      some (ct, ss)) :
    decapsulate pr P (generateKeyPair P polyA zbT w bByte).2 ct = .ok ss := by
  have h2 : (generateKeyPair P polyA zbT w bByte).2 =
      ⟨keygenPk P polyA zbT w bByte, keygenZb zbT P.m P.lambda P.q,
        keygenB bByte⟩ := rfl
  rw [h2]
  exact decap_inverts_encap pr P (keygenPk P polyA zbT w bByte)
    (keygenZb zbT P.m P.lambda P.q) (keygenB bByte) r ct ss
    hH hX hS hq hl8 hl256 hs8 hm32 hlam32 hr
    rfl
    (by cases h : keygenB bByte <;> simp [keygenPk, pkgSetU, h, matAZb])
    (by cases h : keygenB bByte <;> simp [keygenPk, pkgSetU, h, matAZb])
    rfl rfl
    (by cases h : keygenB bByte <;> simp [keygenPk, pkgSetU, h, matAZb])
    (by cases h : keygenB bByte <;> simp [keygenPk, pkgSetU, h, matAZb])
    (by cases h : keygenB bByte <;> simp [keygenPk, pkgSetU, h, matAZb])
    (by cases h : keygenB bByte <;> simp [keygenPk, pkgSetU, h, matAZb])
    rfl rfl henc

/-- Witness for `kem_consistency` at a tiny concrete instance
(`n = 8`, `m = 1`, `lambda = 8`, `logEta = 0`, `q = 3`, all-zero
primitives, empty sampled key material, seed `r = [0]`): encapsulation
produces a 31-byte ciphertext and decapsulation returns the same 4-byte
shared secret. -/
theorem kem_consistency_witness :
    encapsulate
        ⟨fun _ => List.replicate 32 0, fun _ k => List.replicate k 0,
          fun len _ => List.replicate len 0⟩
        ⟨"T", 8, 1, 8, 0, 3, 4, 0, 0, 0⟩
        (generateKeyPair ⟨"T", 8, 1, 8, 0, 3, 4, 0, 0, 0⟩ [] [] [] 0).1 [0] =
      some ([0, 0, 0, 0, 0, 1, 0, 0, 0, 0, 8, 0, 0, 0, 0, 0, 0, 0, 0, 0, 0, 0,
        8, 0, 0, 0, 0, 0, 0, 0, 0], [0, 0, 0, 0]) ∧
    decapsulate
        ⟨fun _ => List.replicate 32 0, fun _ k => List.replicate k 0,
          fun len _ => List.replicate len 0⟩
        ⟨"T", 8, 1, 8, 0, 3, 4, 0, 0, 0⟩
        (generateKeyPair ⟨"T", 8, 1, 8, 0, 3, 4, 0, 0, 0⟩ [] [] [] 0).2
        [0, 0, 0, 0, 0, 1, 0, 0, 0, 0, 8, 0, 0, 0, 0, 0, 0, 0, 0, 0, 0, 0, 8,
          0, 0, 0, 0, 0, 0, 0, 0] =
      .ok [0, 0, 0, 0] :=
  ⟨by rfl,
    kem_consistency
      ⟨fun _ => List.replicate 32 0, fun _ k => List.replicate k 0,
        fun len _ => List.replicate len 0⟩
      ⟨"T", 8, 1, 8, 0, 3, 4, 0, 0, 0⟩ [] [] [] 0 [0]
      [0, 0, 0, 0, 0, 1, 0, 0, 0, 0, 8, 0, 0, 0, 0, 0, 0, 0, 0, 0, 0, 0, 8, 0,
        0, 0, 0, 0, 0, 0, 0] [0, 0, 0, 0]
      (fun _ => rfl) (fun _ k => List.length_replicate k 0)
      (fun len _ => List.length_replicate len 0)
      (by decide) (by decide) (by decide) (by decide) (by decide) (by decide)
      rfl (by rfl)⟩


end OwChCCA
